import Mathlib

/-!
Verification of the execution engine in `src/LLVMInterpreter/Interpreter.cpp`
(the LLVMDynamicTools interpreter core).  The C++ source is shallowly embedded:
each interpreter member function becomes a Lean definition with the same name,
machine state (call stack, the two bump allocators, the global maps) is passed
explicitly, potentially non-terminating or aborting execution is modelled with
a fuel parameter and `Option` (`none` = fatal abort or fuel exhaustion), and
the collaborator boundaries that are not part of the source file (runtime
values, the operand/constant/instruction evaluators, the external-call
boundary, the IR data model) are modelled from the specification.
-/

namespace LLVMInterp

/-- Association-list lookup by key, scanning left to right (first match wins).
Used to model the various keyed tables of the interpreter. -/
def findVal {α β : Type} [DecidableEq α] : List (α × β) → α → Option β
  | [], _ => none
  | (k, v) :: rest, key => if k = key then some v else findVal rest key

/-- Update-or-append insertion into an association list: an existing entry for
the key is overwritten in place, otherwise the pair is appended at the end.
Models map insertion with overwrite semantics (frame binding tables). -/
def insertAssoc {α β : Type} [DecidableEq α] (key : α) (val : β) :
    List (α × β) → List (α × β)
  | [] => [(key, val)]
  | (k, v) :: rest =>
    if k = key then (key, val) :: rest else (k, v) :: insertAssoc key val rest

/-- Insert-if-absent into an association list: a no-op when the key is already
present.  Models the semantics of the `insert` member of the C++ map type used
for `globalEnv` and `funPtrMap` (`std::map::insert` does not overwrite). -/
def insertIfAbsent {α β : Type} [DecidableEq α] (key : α) (val : β)
    (m : List (α × β)) : List (α × β) :=
  match findVal m key with
  | some _ => m
  | none => m ++ [(key, val)]

/-- Modelled from the spec: an arbitrary-precision machine integer (the
`APInt` consumed opaquely by the engine), a bit width together with the value
reduced modulo `2 ^ width`.  Two such integers are equal exactly when both the
width and the full value agree. -/
structure APIntM where
  width : Nat
  val : Nat
deriving DecidableEq, Repr

/-- Modelled from the spec: truthiness of a machine integer, `true` exactly
when the value is nonzero (any width). -/
def APIntM.getBoolValue (i : APIntM) : Bool := i.val != 0

/-- Modelled from the spec: sign-extension of a machine integer to a
mathematical integer, used for the process exit code. -/
def APIntM.getSExtValue (i : APIntM) : Int :=
  if i.val < 2 ^ (i.width - 1) then (i.val : Int) else (i.val : Int) - 2 ^ i.width

/-- Modelled from the spec: the engine's opaque runtime value
(`DynamicValue`), with an explicit undefined marker; the core only ever asks
for its integer content or moves it between bindings. -/
inductive DynamicValue where
  | undef
  | intVal (i : APIntM)
  | ptr (addr : Nat)
deriving DecidableEq, Repr

/-- Modelled from the spec: viewing a runtime value as an integer; a fatal
usage error (here `none`) on a value that is not an integer. -/
def DynamicValue.getAsIntValue : DynamicValue → Option APIntM
  | .intVal i => some i
  | _ => none

/-- Modelled from the spec: the shapes of IR types the engine can meet; only
the vector/non-vector distinction and the type-size query matter to the
engine. -/
inductive Ty where
  | intTy (width : Nat)
  | ptrTy
  | funTy
  | arrTy (n : Nat) (elem : Ty)
  | vecTy (n : Nat) (elem : Ty)
deriving DecidableEq, Repr

/-- Modelled from the spec: the vector-type test used by global allocation. -/
def Ty.isVectorTy : Ty → Bool
  | .vecTy _ _ => true
  | _ => false

/-- Key of the global-entity-to-address map: a global variable or a function,
identified by a numeric identity (standing for the C++ pointer identity). -/
inductive GlobalKey where
  | gvar (id : Nat)
  | gfun (id : Nat)
deriving DecidableEq, Repr

/-- Modelled from the spec: an initializer constant, which may be a plain
integer, the address of another global entity (forward references allowed), or
the undefined marker. -/
inductive Constant where
  | intC (i : APIntM)
  | globalRefC (k : GlobalKey)
  | undefC
deriving DecidableEq, Repr

/-- Modelled from the spec: an instruction operand, either a constant or a
reference (by IR value identity) to a binding of the current frame. -/
inductive Operand where
  | const (v : DynamicValue)
  | var (id : Nat)
deriving DecidableEq, Repr

/-- Modelled from the spec: a merge (PHI) instruction: a result identity plus
the list of (predecessor block, incoming operand) pairs. -/
structure PHINode where
  id : Nat
  incoming : List (Nat × Operand)
deriving DecidableEq, Repr

/-- Modelled from the spec: the non-terminal instructions the collaborator
instruction evaluator can perform against the engine: a stack allocation, a
pure instruction writing its result binding, and a nested call. -/
inductive Instr where
  | alloca (result : Nat) (size : Nat)
  | assign (result : Nat) (op : Operand)
  | call (result : Nat) (callee : Nat) (args : List Operand)
deriving DecidableEq, Repr

/-- The closed set of terminator instructions the engine dispatches on:
branch (conditional or not), return, switch, and the unsupported shapes that
abort the process. -/
inductive Terminator where
  | br (dest : Nat)
  | condBr (cond : Operand) (succ0 succ1 : Nat)
  | ret (value : Option Operand)
  | switch (cond : Operand) (cases : List (APIntM × Nat)) (defaultDest : Nat)
  | unreachableT
  | indirectBrT
  | invokeT
  | resumeT
deriving DecidableEq, Repr

/-- Modelled from the spec: a basic block, merge instructions at the head,
then straight-line instructions, then exactly one terminator. -/
structure BasicBlock where
  phis : List PHINode
  insts : List Instr
  term : Terminator
deriving DecidableEq, Repr

/-- Modelled from the spec: an IR function: fixed parameters in declaration
order, the variadic flag, the type used when synthesizing its address, and the
body (block 0 is the entry block; an empty body means declaration-only). -/
structure Function where
  params : List Nat
  isVarArg : Bool
  ty : Ty
  body : List BasicBlock
deriving DecidableEq, Repr

/-- Modelled from the spec: a global variable: its type (as queried by the
allocator) and an optional initializer constant. -/
structure GlobalVar where
  ty : Ty
  init : Option Constant
deriving DecidableEq, Repr

/-- Modelled from the spec: the already-parsed program image handed to the
engine: global variables and functions, each with a numeric identity. -/
structure Module where
  globals : List (Nat × GlobalVar)
  funcs : List (Nat × Function)
deriving DecidableEq, Repr

/-- The immutable context of the interpreter: the module, the type-size query
(`DataLayout::getTypeAllocSize`) and the external-call boundary, both
collaborator boundaries modelled from the spec. -/
structure Program where
  module : Module
  dataLayout : Ty → Nat
  external : Nat → List DynamicValue → DynamicValue

/-- Modelled from the spec: one activation record (`StackFrame`): the function
being executed, the binding table from IR value identity to runtime value, the
variadic overflow sequence, and the running total of bytes this frame has
claimed from the stack allocator. -/
structure StackFrame where
  func : Function
  bindings : List (Nat × DynamicValue)
  varargs : List DynamicValue
  allocationSize : Nat
deriving DecidableEq, Repr

/-- Modelled from the spec: insertion into the frame's binding table
(insertion overwrites). -/
def StackFrame.insertBinding (fr : StackFrame) (id : Nat) (v : DynamicValue) :
    StackFrame :=
  { fr with bindings := insertAssoc id v fr.bindings }

/-- Modelled from the spec: appending one value to the frame's variadic
overflow sequence, preserving call-site order. -/
def StackFrame.insertVararg (fr : StackFrame) (v : DynamicValue) : StackFrame :=
  { fr with varargs := fr.varargs ++ [v] }

/-- Modelled from the spec: bumping the frame's recorded claimed-byte total
by one allocation request. -/
def StackFrame.increaseAllocationSize (fr : StackFrame) (size : Nat) :
    StackFrame :=
  { fr with allocationSize := fr.allocationSize + size }

/-- Modelled from the spec: a bump-allocator address space
(`MemorySection`): a single high-water mark plus the written contents.
`allocate` carves bytes and returns the old mark as the fresh address. -/
structure MemorySection where
  mark : Nat
  store : List (Nat × DynamicValue)
deriving DecidableEq, Repr

/-- Modelled from the spec: carve `size` bytes, returning the fresh address
and the grown section. -/
def MemorySection.allocate (m : MemorySection) (size : Nat) :
    Nat × MemorySection :=
  (m.mark, ⟨m.mark + size, m.store⟩)

/-- Modelled from the spec: release the most recently allocated `total` bytes
(stack discipline, callers release in exact reverse order). -/
def MemorySection.deallocate (m : MemorySection) (total : Nat) : MemorySection :=
  ⟨m.mark - total, m.store⟩

/-- Modelled from the spec: reset the space to empty, invalidating every
previously issued address. -/
def MemorySection.clear (_m : MemorySection) : MemorySection := ⟨0, []⟩

/-- Modelled from the spec: store a runtime value at a previously allocated
address; writing an address that was never allocated (at or beyond the mark)
is a fatal usage error. -/
def MemorySection.write (m : MemorySection) (a : Nat) (v : DynamicValue) :
    Option MemorySection :=
  if a < m.mark then some ⟨m.mark, insertAssoc a v m.store⟩ else none

/-- Modelled from the spec: retrieve the runtime value at a previously
allocated address. -/
def MemorySection.read (m : MemorySection) (a : Nat) : Option DynamicValue :=
  if a < m.mark then findVal m.store a else none

/-- The mutable state of the interpreter: the two address spaces, the call
stack (head = current frame), the global-entity-to-address map, the inverse
function-pointer map, and ghost counters of frame pushes and pops. -/
structure InterpState where
  stackMem : MemorySection
  globalMem : MemorySection
  stack : List StackFrame
  globalEnv : List (GlobalKey × Nat)
  funPtrMap : List (Nat × Nat)
  pushCount : Nat
  popCount : Nat
deriving DecidableEq, Repr

/-- The state of a freshly constructed interpreter: empty address spaces,
empty call stack, empty global maps. -/
def initState : InterpState := ⟨⟨0, []⟩, ⟨0, []⟩, [], [], [], 0, 0⟩

/-- Replace the current (topmost) frame of the call stack. -/
def InterpState.setCurrentFrame (σ : InterpState) (fr : StackFrame) :
    InterpState :=
  { σ with stack := fr :: σ.stack.tail }

/-- Modelled from the spec: the operand evaluator boundary restricted to what
the engine needs: a constant evaluates to itself, a value reference reads the
current frame's binding table (an unwritten binding yields the undefined
marker). -/
def evaluateOperand (frame : StackFrame) : Operand → DynamicValue
  | .const v => v
  | .var id => (findVal frame.bindings id).getD DynamicValue.undef

/-- Modelled from the spec: the constant evaluator boundary, evaluated without
a frame during global initialization; a reference to a global entity resolves
to that entity's address through the global-entity map, and an entity with no
recorded address is a fatal usage error. -/
def evaluateConstant (env : List (GlobalKey × Nat)) :
    Constant → Option DynamicValue
  | .intC i => some (DynamicValue.intVal i)
  | .globalRefC k =>
    match findVal env k with
    | some a => some (DynamicValue.ptr a)
    | none => none
  | .undefC => some DynamicValue.undef

/-- `Interpreter::allocateStackMem`: record the requested size in the frame's
claimed-byte total and carve the bytes from the stack allocator. -/
def allocateStackMem (frame : StackFrame) (stackMem : MemorySection)
    (size : Nat) : StackFrame × Nat × MemorySection :=
  let frame1 := frame.increaseAllocationSize size
  let (addr, mem1) := stackMem.allocate size
  (frame1, addr, mem1)

/-- `Interpreter::allocateGlobalMem`: a vector-typed global is a fatal
configuration error; otherwise carve the type's allocation size from the
global space. -/
def allocateGlobalMem (prog : Program) (ty : Ty) (globalMem : MemorySection) :
    Option (Nat × MemorySection) :=
  if ty.isVectorTy then none
  else some (globalMem.allocate (prog.dataLayout ty))

/-- `Interpreter::popStack`: release the current frame's entire claimed stack
allocation as one batch, then pop the frame. -/
def popStack (σ : InterpState) : Option InterpState :=
  match σ.stack with
  | [] => none
  | frame :: rest =>
    some { σ with stackMem := σ.stackMem.deallocate frame.allocationSize,
                  stack := rest,
                  popCount := σ.popCount + 1 }

/-- First pass of `switchToNewBasicBlock`: for every merge instruction at the
destination's head, look up the incoming operand for the predecessor just
exited (missing entry = fatal assertion) and evaluate it against the frame as
it was on entry; nothing is committed yet. -/
def computePhiCache (frame : StackFrame) (prevBB : Nat) :
    List PHINode → Option (List (Nat × DynamicValue))
  | [] => some []
  | phi :: rest => do
    let op ← findVal phi.incoming prevBB
    let cache ← computePhiCache frame prevBB rest
    some ((phi.id, evaluateOperand frame op) :: cache)

/-- Second pass of `switchToNewBasicBlock`: commit the buffered
(merge-instruction, value) pairs to the frame's binding table in order. -/
def commitPhiCache (frame : StackFrame) :
    List (Nat × DynamicValue) → StackFrame
  | [] => frame
  | (id, v) :: rest => commitPhiCache (frame.insertBinding id v) rest

/-- `Interpreter::runFunction::switchToNewBasicBlock`: on transferring control
into a block, buffer the value of every merge instruction at its head (all
evaluated against the pre-entry frame) and only then commit the buffer. -/
def switchToNewBasicBlock (frame : StackFrame) (prevBB : Nat)
    (destBB : BasicBlock) : Option StackFrame := do
  let phiValueCache ← computePhiCache frame prevBB destBB.phis
  some (commitPhiCache frame phiValueCache)

/-- Transfer of control in the execution loop: fetch the destination block and
run the two-pass merge-instruction update on the current frame. -/
def enterBlock (f : Function) (σ : InterpState) (prevBB destBB : Nat) :
    Option InterpState := do
  let bb ← f.body.get? destBB
  let frame ← σ.stack.head?
  let frame1 ← switchToNewBasicBlock frame prevBB bb
  some (σ.setCurrentFrame frame1)

/-- The case scan of the `Instruction::Switch` arm of `runFunction`: the
destination starts as the default block and the first case whose constant
equals the selector (width and full value) overwrites it and stops the scan. -/
def scanCases (condInt : APIntM) (defaultDest : Nat) :
    List (APIntM × Nat) → Nat
  | [] => defaultDest
  | (caseInt, dst) :: rest =>
    if condInt = caseInt then dst else scanCases condInt defaultDest rest

/-- The argument-binding passage of `Interpreter::callFunction`: walk the
fixed parameters in declaration order, binding each to the corresponding
argument, then append every remaining argument to the variadic overflow
sequence. -/
def bindArgs : List Nat → List DynamicValue → StackFrame → StackFrame
  | [], rest, fr => rest.foldl StackFrame.insertVararg fr
  | _ :: _, [], fr => fr
  | p :: ps, a :: as, fr => bindArgs ps as (fr.insertBinding p a)

mutual

/-- `Interpreter::callFunction`: dispatch a declaration-only callee to the
external-call boundary; otherwise check the argument-count precondition (a
fatal assertion when violated; the source allocates the frame before the
assertion, which is indistinguishable after an abort), push a frame with the
parameters bound and the overflow arguments appended, and run the body. -/
def callFunction : Nat → Program → InterpState → Nat → List DynamicValue →
    Option (DynamicValue × InterpState)
  | 0, _, _, _, _ => none
  | fuel+1, prog, σ, fid, args => do
    let f ← findVal prog.module.funcs fid
    if f.body.isEmpty then
      some (prog.external fid args, σ)
    else
      if args.length = f.params.length ∨
          (f.params.length < args.length ∧ f.isVarArg = true) then
        let calleeFrame := bindArgs f.params args (StackFrame.mk f [] [] 0)
        runFunction fuel prog
          { σ with stack := calleeFrame :: σ.stack,
                   pushCount := σ.pushCount + 1 }
      else none

/-- `Interpreter::runFunction`: fetch the current frame's function and start
the execution loop at its entry block (block 0), with no merge-instruction
pass on this very first entry. -/
def runFunction : Nat → Program → InterpState → Option (DynamicValue × InterpState)
  | 0, _, _ => none
  | fuel+1, prog, σ => do
    let frame ← σ.stack.head?
    runLoop fuel prog frame.func σ 0

/-- The `while (true)` dispatch loop of `Interpreter::runFunction`: execute
the straight-line instructions of the current block (the merge instructions at
its head are skipped: they live before `insts` structurally), then dispatch on
the terminator; branch and switch transfer control through the
merge-instruction pass and loop, return evaluates its operand while the
returning frame is still current, pops the frame and produces the value, and
every unsupported terminator aborts. -/
def runLoop : Nat → Program → Function → InterpState → Nat →
    Option (DynamicValue × InterpState)
  | 0, _, _, _, _ => none
  | fuel+1, prog, f, σ, cur => do
    let bb ← f.body.get? cur
    let σ1 ← execInsts fuel prog σ bb.insts
    match bb.term with
    | .ret v => do
      let frame ← σ1.stack.head?
      let retVal := match v with
        | none => DynamicValue.undef
        | some op => evaluateOperand frame op
      let σ2 ← popStack σ1
      some (retVal, σ2)
    | .br dest => do
      let σ2 ← enterBlock f σ1 cur dest
      runLoop fuel prog f σ2 dest
    | .condBr cond s0 s1 => do
      let frame ← σ1.stack.head?
      let condInt ← (evaluateOperand frame cond).getAsIntValue
      let dest := if condInt.getBoolValue then s0 else s1
      let σ2 ← enterBlock f σ1 cur dest
      runLoop fuel prog f σ2 dest
    | .switch cond cases dflt => do
      let frame ← σ1.stack.head?
      let condInt ← (evaluateOperand frame cond).getAsIntValue
      let dest := scanCases condInt dflt cases
      let σ2 ← enterBlock f σ1 cur dest
      runLoop fuel prog f σ2 dest
    | .unreachableT => none
    | .indirectBrT => none
    | .invokeT => none
    | .resumeT => none

/-- Modelled from the spec: the straight-line portion of one loop iteration:
evaluate each non-terminal instruction in program order through the
instruction-evaluator boundary. -/
def execInsts : Nat → Program → InterpState → List Instr → Option InterpState
  | 0, _, _, _ => none
  | _+1, _, σ, [] => some σ
  | fuel+1, prog, σ, i :: rest => do
    let σ1 ← evalInstr fuel prog σ i
    execInsts fuel prog σ1 rest

/-- Modelled from the spec: the non-terminal instruction evaluator boundary:
it may allocate stack memory through `allocateStackMem` (binding the fresh
address), mutate the current frame's bindings, and perform a nested call back
through `callFunction`, binding its result. -/
def evalInstr : Nat → Program → InterpState → Instr → Option InterpState
  | 0, _, _, _ => none
  | _+1, _, σ, .assign r op => do
    let frame ← σ.stack.head?
    some (σ.setCurrentFrame (frame.insertBinding r (evaluateOperand frame op)))
  | _+1, _, σ, .alloca r size => do
    let frame ← σ.stack.head?
    let res := allocateStackMem frame σ.stackMem size
    some ({ σ with stackMem := res.2.2 }.setCurrentFrame
      (res.1.insertBinding r (DynamicValue.ptr res.2.1)))
  | fuel+1, prog, σ, .call r callee ops => do
    let frame ← σ.stack.head?
    let args := ops.map (evaluateOperand frame)
    let vσ ← callFunction fuel prog σ callee args
    let frame1 ← vσ.2.stack.head?
    some (vσ.2.setCurrentFrame (frame1.insertBinding r vσ.1))

end

/-- First loop of `Interpreter::evaluateGlobals`: allocate storage for every
global variable (before any initializer is evaluated) and record the address
in the global-entity map. -/
def allocGlobalsLoop (prog : Program) :
    List (Nat × GlobalVar) → List (GlobalKey × Nat) → MemorySection →
    Option (List (GlobalKey × Nat) × MemorySection)
  | [], env, mem => some (env, mem)
  | g :: rest, env, mem => do
    let am ← allocateGlobalMem prog g.2.ty mem
    allocGlobalsLoop prog rest (insertIfAbsent (GlobalKey.gvar g.1) am.1 env) am.2

/-- Second loop of `Interpreter::evaluateGlobals`: for every global variable,
look its address up (a missing entry is a fatal lookup error) and, when it
declares an initializer, evaluate the initializer constant and write the
result at the variable's address. -/
def initGlobalsLoop :
    List (Nat × GlobalVar) → List (GlobalKey × Nat) → MemorySection →
    Option MemorySection
  | [], _, mem => some mem
  | g :: rest, env, mem => do
    let addr ← findVal env (GlobalKey.gvar g.1)
    match g.2.init with
    | some c => do
      let v ← evaluateConstant env c
      let mem1 ← mem.write addr v
      initGlobalsLoop rest env mem1
    | none => initGlobalsLoop rest env mem

/-- Third loop of `Interpreter::evaluateGlobals`: give each function a
synthesized address in global space, recorded in both directions
(entity-to-address and address-to-function). -/
def allocFunsLoop (prog : Program) :
    List (Nat × Function) → List (GlobalKey × Nat) → List (Nat × Nat) →
    MemorySection →
    Option (List (GlobalKey × Nat) × List (Nat × Nat) × MemorySection)
  | [], env, fpm, mem => some (env, fpm, mem)
  | f :: rest, env, fpm, mem => do
    let am ← allocateGlobalMem prog f.2.ty mem
    allocFunsLoop prog rest (insertIfAbsent (GlobalKey.gfun f.1) am.1 env)
      (insertIfAbsent am.1 f.1 fpm) am.2

/-- `Interpreter::evaluateGlobals`: clear the global space, allocate storage
for all globals, then evaluate and write every initializer, then synthesize an
address for every function. -/
def evaluateGlobals (prog : Program) (σ : InterpState) : Option InterpState := do
  let em ← allocGlobalsLoop prog prog.module.globals σ.globalEnv
    σ.globalMem.clear
  let mem2 ← initGlobalsLoop prog.module.globals em.1 em.2
  let efm ← allocFunsLoop prog prog.module.funcs em.1 σ.funPtrMap mem2
  some { σ with globalMem := efm.2.2, globalEnv := efm.1, funPtrMap := efm.2.1 }

/-- `Interpreter::runMain`: invoke the entry function with an empty argument
sequence (its process arguments are ignored by the source), map an undefined
result to exit code 0, and otherwise sign-extend the returned integer. -/
def runMain (fuel : Nat) (prog : Program) (σ : InterpState) (mainFid : Nat)
    (_mainArgs : List String) : Option (Int × InterpState) := do
  let rv ← callFunction fuel prog σ mainFid []
  if rv.1 = DynamicValue.undef then some (0, rv.2)
  else do
    let i ← rv.1.getAsIntValue
    some (i.getSExtValue, rv.2)

/-! ### Association-list lemmas -/

theorem findVal_insertAssoc_self {α β : Type} [DecidableEq α] (key : α) (v : β) :
    ∀ m : List (α × β), findVal (insertAssoc key v m) key = some v
  | [] => by simp [insertAssoc, findVal]
  | (k, w) :: rest => by
    by_cases h : k = key
    · simp [insertAssoc, h, findVal]
    · simp [insertAssoc, h, findVal, findVal_insertAssoc_self key v rest]

theorem findVal_insertAssoc_ne {α β : Type} [DecidableEq α] (key k' : α) (v : β)
    (h : key ≠ k') : ∀ m : List (α × β),
    findVal (insertAssoc key v m) k' = findVal m k'
  | [] => by simp [insertAssoc, findVal, h]
  | (k, w) :: rest => by
    by_cases hk : k = key
    · subst hk; simp [insertAssoc, findVal, h]
    · simp only [insertAssoc, if_neg hk, findVal]
      by_cases hk' : k = k'
      · simp [hk']
      · simp [hk', findVal_insertAssoc_ne key k' v h rest]

theorem findVal_append {α β : Type} [DecidableEq α] (m2 : List (α × β)) (k : α) :
    ∀ m1 : List (α × β), findVal (m1 ++ m2) k =
      match findVal m1 k with
      | some v => some v
      | none => findVal m2 k
  | [] => by simp [findVal]
  | (k1, v1) :: rest => by
    by_cases h : k1 = k
    · simp [findVal, h]
    · simp [findVal, h, findVal_append m2 k rest]

theorem findVal_append_of_isSome {α β : Type} [DecidableEq α]
    (m1 m2 : List (α × β)) (k : α) (v : β) (h : findVal m1 k = some v) :
    findVal (m1 ++ m2) k = some v := by
  rw [findVal_append, h]

theorem insertAssoc_of_absent {α β : Type} [DecidableEq α] (key : α) (v : β) :
    ∀ m : List (α × β), findVal m key = none →
      insertAssoc key v m = m ++ [(key, v)]
  | [], _ => by simp [insertAssoc]
  | (k, w) :: rest, h => by
    simp only [findVal] at h
    by_cases hk : k = key
    · simp [hk] at h
    · simp only [if_neg hk] at h
      simp [insertAssoc, hk, insertAssoc_of_absent key v rest h]

theorem insertIfAbsent_of_present {α β : Type} [DecidableEq α] (key : α)
    (v w : β) (m : List (α × β)) (h : findVal m key = some w) :
    insertIfAbsent key v m = m := by
  simp [insertIfAbsent, h]

theorem findVal_insertIfAbsent_isSome {α β : Type} [DecidableEq α] (key : α)
    (v : β) (m : List (α × β)) :
    (findVal (insertIfAbsent key v m) key).isSome = true := by
  unfold insertIfAbsent
  cases h : findVal m key with
  | some w => simp [h]
  | none => simp [findVal_append, h, findVal]

theorem findVal_insertIfAbsent_mono {α β : Type} [DecidableEq α]
    (key k' : α) (v w : β) (m : List (α × β)) (h : findVal m k' = some w) :
    findVal (insertIfAbsent key v m) k' = some w := by
  unfold insertIfAbsent
  cases hk : findVal m key with
  | some u => simpa [hk] using h
  | none => simp [findVal_append, h]

theorem insertIfAbsent_append {α β : Type} [DecidableEq α] (key : α) (v : β)
    (m : List (α × β)) : ∃ d, insertIfAbsent key v m = m ++ d := by
  unfold insertIfAbsent
  cases h : findVal m key with
  | some u => exact ⟨[], by simp⟩
  | none => exact ⟨[(key, v)], rfl⟩

/-! ### C6: sizing of global allocations, vector types fatal -/

/-- C6.  For every global processed by `allocateGlobalMem`, the global space
grows by exactly the allocation size the type-size query reports for that
variable's type, the returned address is the fresh one, no stored contents are
disturbed, and the call fails (fatally) exactly when the type is a vector
type. -/
theorem C6_global_alloc_size (prog : Program) (ty : Ty) (mem : MemorySection) :
    (allocateGlobalMem prog ty mem = none ↔ ty.isVectorTy = true) ∧
    (∀ out, allocateGlobalMem prog ty mem = some out →
      out.1 = mem.mark ∧ out.2.mark = mem.mark + prog.dataLayout ty ∧
      out.2.store = mem.store) := by
  constructor
  · constructor
    · intro h
      by_contra hv
      simp [allocateGlobalMem, hv] at h
    · intro h
      simp [allocateGlobalMem, h]
  · intro out h
    by_cases hv : ty.isVectorTy
    · simp [allocateGlobalMem, hv] at h
    · simp only [allocateGlobalMem, hv, Bool.false_eq_true, if_false,
        Option.some.injEq] at h
      subst h
      simp [MemorySection.allocate]

/-- Concrete memory section used by the C6 witness. -/
def C6mem : MemorySection := ⟨8, []⟩

/-- Concrete program (4-byte allocation size for every type) used by the C6
witness. -/
def C6prog : Program := ⟨⟨[], []⟩, fun _ => 4, fun _ _ => DynamicValue.undef⟩

/-- Witness for C6: evaluation at a concrete 4-byte integer global allocated
from a section whose mark is 8. -/
theorem C6_global_alloc_size_witness :
    ((8 : Nat), (⟨12, []⟩ : MemorySection)).1 = C6mem.mark ∧
    ((8 : Nat), (⟨12, []⟩ : MemorySection)).2.mark =
      C6mem.mark + C6prog.dataLayout (Ty.intTy 32) ∧
    ((8 : Nat), (⟨12, []⟩ : MemorySection)).2.store = C6mem.store :=
  (C6_global_alloc_size C6prog (Ty.intTy 32) C6mem).2 (8, ⟨12, []⟩) (by decide)

/-! ### C1: two-pass merge-instruction update -/

theorem commitPhiCache_func : ∀ (cache : List (Nat × DynamicValue))
    (fr : StackFrame), (commitPhiCache fr cache).func = fr.func ∧
      (commitPhiCache fr cache).varargs = fr.varargs ∧
      (commitPhiCache fr cache).allocationSize = fr.allocationSize
  | [], fr => ⟨rfl, rfl, rfl⟩
  | (k, v) :: rest, fr => by
    simpa [commitPhiCache, StackFrame.insertBinding] using
      commitPhiCache_func rest (fr.insertBinding k v)

theorem commitPhiCache_lookup_not_mem :
    ∀ (cache : List (Nat × DynamicValue)) (fr : StackFrame) (x : Nat),
    x ∉ cache.map Prod.fst →
    findVal (commitPhiCache fr cache).bindings x = findVal fr.bindings x
  | [], fr, x, _ => rfl
  | (k, v) :: rest, fr, x, h => by
    simp only [List.map_cons, List.mem_cons, not_or] at h
    have ih := commitPhiCache_lookup_not_mem rest (fr.insertBinding k v) x h.2
    have step : findVal (fr.insertBinding k v).bindings x = findVal fr.bindings x :=
      findVal_insertAssoc_ne k x v (fun hk => h.1 hk.symm) fr.bindings
    exact ih.trans step

theorem commitPhiCache_lookup_mem :
    ∀ (cache : List (Nat × DynamicValue)) (fr : StackFrame) (x : Nat)
    (v : DynamicValue), (cache.map Prod.fst).Nodup → (x, v) ∈ cache →
    findVal (commitPhiCache fr cache).bindings x = some v
  | [], _, _, _, _, hmem => absurd hmem (List.not_mem_nil _)
  | (k, w) :: rest, fr, x, v, hnd, hmem => by
    simp only [List.map_cons, List.nodup_cons] at hnd
    rcases List.mem_cons.mp hmem with heq | htail
    · cases heq
      have ih := commitPhiCache_lookup_not_mem rest (fr.insertBinding k w) k hnd.1
      have step : findVal (fr.insertBinding k w).bindings k = some w :=
        findVal_insertAssoc_self k w fr.bindings
      exact ih.trans step
    · exact commitPhiCache_lookup_mem rest _ x v hnd.2 htail

theorem computePhiCache_keys :
    ∀ (phis : List PHINode) (fr : StackFrame) (prev : Nat)
    (cache : List (Nat × DynamicValue)),
    computePhiCache fr prev phis = some cache →
    cache.map Prod.fst = phis.map PHINode.id
  | [], _, _, cache, h => by
    simp only [computePhiCache, Option.some.injEq] at h
    simp [← h]
  | phi :: rest, fr, prev, cache, h => by
    simp only [computePhiCache, Option.bind_eq_bind, Option.bind_eq_some, Option.some.injEq] at h
    obtain ⟨op, _, c, hc, rfl⟩ := h
    simp [computePhiCache_keys rest fr prev c hc]

theorem computePhiCache_mem :
    ∀ (phis : List PHINode) (fr : StackFrame) (prev : Nat)
    (cache : List (Nat × DynamicValue)),
    computePhiCache fr prev phis = some cache →
    ∀ phi ∈ phis, ∃ op, findVal phi.incoming prev = some op ∧
      (phi.id, evaluateOperand fr op) ∈ cache
  | [], _, _, _, _ => fun _ hq => absurd hq (List.not_mem_nil _)
  | phi :: rest, fr, prev, cache, h => by
    simp only [computePhiCache, Option.bind_eq_bind, Option.bind_eq_some, Option.some.injEq] at h
    obtain ⟨op, hop, c, hc, rfl⟩ := h
    intro q hq
    rcases List.mem_cons.mp hq with rfl | htail
    · exact ⟨op, hop, List.mem_cons_self _ _⟩
    · obtain ⟨op', hop', hmem'⟩ := computePhiCache_mem rest fr prev c hc q htail
      exact ⟨op', hop', List.mem_cons_of_mem _ hmem'⟩

/-- C1.  On every transfer of control into a block (the head merge
instructions having pairwise distinct result identities, as IR guarantees),
the committed binding of every merge instruction is its incoming operand for
the predecessor just exited evaluated against the frame as it was *before any
commit of this entry event* — so no sibling's freshly written binding is ever
observed (swap semantics) — and every binding that is not a merge-instruction
result of this block is untouched. -/
theorem C1_merge_simultaneous (fr fr' : StackFrame) (prevBB : Nat)
    (destBB : BasicBlock) (hnd : (destBB.phis.map PHINode.id).Nodup)
    (h : switchToNewBasicBlock fr prevBB destBB = some fr') :
    (∀ phi ∈ destBB.phis, ∃ op, findVal phi.incoming prevBB = some op ∧
        findVal fr'.bindings phi.id = some (evaluateOperand fr op)) ∧
    (∀ x, x ∉ destBB.phis.map PHINode.id →
        findVal fr'.bindings x = findVal fr.bindings x) := by
  simp only [switchToNewBasicBlock, Option.bind_eq_bind, Option.bind_eq_some, Option.some.injEq] at h
  obtain ⟨cache, hc, rfl⟩ := h
  have hkeys := computePhiCache_keys destBB.phis fr prevBB cache hc
  constructor
  · intro phi hphi
    obtain ⟨op, hop, hmem⟩ := computePhiCache_mem destBB.phis fr prevBB cache hc
      phi hphi
    exact ⟨op, hop, commitPhiCache_lookup_mem cache fr phi.id _
      (by rw [hkeys]; exact hnd) hmem⟩
  · intro x hx
    exact commitPhiCache_lookup_not_mem cache fr x (by rw [hkeys]; exact hx)

/-- Frame used by the C1 witness: bindings 10 ↦ 1 and 11 ↦ 2. -/
def C1frame : StackFrame :=
  ⟨⟨[], false, Ty.funTy, []⟩,
   [(10, DynamicValue.intVal ⟨8, 1⟩), (11, DynamicValue.intVal ⟨8, 2⟩)], [], 0⟩

/-- Block used by the C1 witness: two merge instructions at its head reading
each other's old binding (the spec's swap scenario). -/
def C1block : BasicBlock :=
  ⟨[⟨10, [(0, Operand.var 11)]⟩, ⟨11, [(0, Operand.var 10)]⟩], [],
   Terminator.ret none⟩

/-- The frame produced by the C1 witness: the two bindings are swapped. -/
def C1frameAfter : StackFrame :=
  ⟨⟨[], false, Ty.funTy, []⟩,
   [(10, DynamicValue.intVal ⟨8, 2⟩), (11, DynamicValue.intVal ⟨8, 1⟩)], [], 0⟩

/-- Witness for C1: the swap scenario evaluated concretely; both merge
instructions observe the pre-update bindings. -/
theorem C1_merge_simultaneous_witness :
    switchToNewBasicBlock C1frame 0 C1block = some C1frameAfter ∧
    ((∀ phi ∈ C1block.phis, ∃ op, findVal phi.incoming 0 = some op ∧
        findVal C1frameAfter.bindings phi.id =
          some (evaluateOperand C1frame op)) ∧
     (∀ x, x ∉ C1block.phis.map PHINode.id →
        findVal C1frameAfter.bindings x = findVal C1frame.bindings x)) :=
  ⟨by decide,
   C1_merge_simultaneous C1frame C1frameAfter 0 C1block (by decide) (by decide)⟩

/-! ### C7: parameter binding and variadic overflow -/

theorem zip_take_length {α β : Type} :
    ∀ (ps : List α) (as : List β), ps.zip (as.take ps.length) = ps.zip as
  | [], _ => by simp
  | _ :: _, [] => by simp
  | p :: ps, a :: as => by
    simp [List.zip_cons_cons, zip_take_length ps as]

theorem foldl_insertVararg :
    ∀ (rest : List DynamicValue) (fr : StackFrame),
    rest.foldl StackFrame.insertVararg fr =
      ⟨fr.func, fr.bindings, fr.varargs ++ rest, fr.allocationSize⟩
  | [], fr => by simp
  | v :: rest, fr => by
    rw [List.foldl_cons, foldl_insertVararg rest]
    simp [StackFrame.insertVararg]

theorem bindArgs_spec :
    ∀ (params : List Nat) (args : List DynamicValue) (fr : StackFrame),
    params.Nodup → (∀ p ∈ params, findVal fr.bindings p = none) →
    params.length ≤ args.length →
    bindArgs params args fr =
      ⟨fr.func, fr.bindings ++ params.zip args,
       fr.varargs ++ args.drop params.length, fr.allocationSize⟩
  | [], args, fr, _, _, _ => by
    simpa [bindArgs] using foldl_insertVararg args fr
  | p :: ps, [], fr, _, _, hlen => by simp at hlen
  | p :: ps, a :: as, fr, hnd, habs, hlen => by
    simp only [List.nodup_cons] at hnd
    have hb : (fr.insertBinding p a).bindings = fr.bindings ++ [(p, a)] := by
      rw [StackFrame.insertBinding]
      exact insertAssoc_of_absent p a fr.bindings (habs p (List.mem_cons_self _ _))
    have habs' : ∀ q ∈ ps, findVal (fr.insertBinding p a).bindings q = none := by
      intro q hq
      rw [hb, findVal_append, habs q (List.mem_cons_of_mem _ hq)]
      have : p ≠ q := fun h => hnd.1 (h ▸ hq)
      simp [findVal, this]
    have ih := bindArgs_spec ps as (fr.insertBinding p a) hnd.2 habs'
      (by simpa using Nat.le_of_succ_le_succ hlen)
    show bindArgs ps as (fr.insertBinding p a) = _
    rw [ih, hb]
    simp [StackFrame.insertBinding, List.zip_cons_cons, List.append_assoc]

/-- C7.  Invoking a callable with a body, with the argument-count
precondition satisfied and pairwise distinct parameters (as IR guarantees):
the invocation runs the body on a pushed frame whose binding table is exactly
the fixed parameters, in declaration order, bound to the first `n` arguments,
and whose variadic overflow sequence is exactly the remaining arguments in
call-site order. -/
theorem C7_param_binding (fuel : Nat) (prog : Program) (σ : InterpState)
    (fid : Nat) (args : List DynamicValue) (f : Function)
    (hf : findVal prog.module.funcs fid = some f)
    (hbody : f.body.isEmpty = false)
    (hnd : f.params.Nodup)
    (hpre : args.length = f.params.length ∨
      (f.params.length < args.length ∧ f.isVarArg = true)) :
    ∃ calleeFrame,
      callFunction (fuel+1) prog σ fid args =
        runFunction fuel prog
          { σ with stack := calleeFrame :: σ.stack,
                   pushCount := σ.pushCount + 1 } ∧
      calleeFrame.func = f ∧
      calleeFrame.bindings = f.params.zip (args.take f.params.length) ∧
      calleeFrame.bindings.map Prod.fst = f.params ∧
      calleeFrame.varargs = args.drop f.params.length ∧
      calleeFrame.allocationSize = 0 := by
  have hlen : f.params.length ≤ args.length := by
    rcases hpre with h | h
    · exact h.ge
    · exact Nat.le_of_lt h.1
  have hspec := bindArgs_spec f.params args ⟨f, [], [], 0⟩ hnd
    (by intro p _; rfl) hlen
  refine ⟨bindArgs f.params args ⟨f, [], [], 0⟩, ?_, ?_, ?_, ?_, ?_, ?_⟩
  · simp only [callFunction, Option.bind_eq_bind, hf, Option.some_bind, hbody,
      Bool.false_eq_true, if_false, if_pos hpre]
  · rw [hspec]
  · rw [hspec, zip_take_length]
    simp
  · rw [hspec]
    simp [List.map_fst_zip f.params args hlen]
  · rw [hspec]
    simp
  · rw [hspec]

/-- Function used by the C7 witness: two fixed parameters, variadic. -/
def C7fun : Function :=
  ⟨[1, 2], true, Ty.funTy, [⟨[], [], Terminator.ret none⟩]⟩

/-- Program used by the C7 witness. -/
def C7prog : Program :=
  ⟨⟨[], [(0, C7fun)]⟩, fun _ => 8, fun _ _ => DynamicValue.undef⟩

/-- The five arguments of the C7 witness invocation. -/
def C7args : List DynamicValue :=
  [DynamicValue.intVal ⟨32, 1⟩, DynamicValue.intVal ⟨32, 2⟩,
   DynamicValue.intVal ⟨32, 3⟩, DynamicValue.intVal ⟨32, 4⟩,
   DynamicValue.intVal ⟨32, 5⟩]

/-- Witness for C7: a 2-fixed-parameter variadic function invoked with 5
arguments yields a frame with exactly the 2 parameter bindings and the 3
overflow entries in original order. -/
theorem C7_param_binding_witness :
    ∃ calleeFrame,
      callFunction 6 C7prog initState 0 C7args =
        runFunction 5 C7prog
          { initState with stack := calleeFrame :: initState.stack,
                           pushCount := initState.pushCount + 1 } ∧
      calleeFrame.func = C7fun ∧
      calleeFrame.bindings = C7fun.params.zip (C7args.take C7fun.params.length) ∧
      calleeFrame.bindings.map Prod.fst = C7fun.params ∧
      calleeFrame.varargs = C7args.drop C7fun.params.length ∧
      calleeFrame.allocationSize = 0 :=
  C7_param_binding 5 C7prog initState 0 C7args C7fun (by decide) (by decide)
    (by decide) (by decide)

/-! ### C8: argument-count precondition -/

/-- Declaration-only function (no body) used by the C8 counterexample. -/
def C8declFun : Function := ⟨[1], false, Ty.funTy, []⟩

/-- Program used by the C8 counterexample;  the external boundary returns the
integer 9. -/
def C8prog : Program :=
  ⟨⟨[], [(0, C8declFun)]⟩, fun _ => 8,
   fun _ _ => DynamicValue.intVal ⟨32, 9⟩⟩

/-- Counterexample to C8 as stated: invoking a *declaration-only* callable
with an argument count that neither equals its fixed parameter count (0 ≠ 1)
nor exceeds it as a variadic call is **not** a fatal precondition failure —
the engine dispatches to the external boundary before the assertion and
returns its value normally. -/
theorem C8_counterexample :
    C8declFun.params.length = 1 ∧
    C8declFun.isVarArg = false ∧
    findVal C8prog.module.funcs 0 = some C8declFun ∧
    callFunction 5 C8prog initState 0 [] =
      some (DynamicValue.intVal ⟨32, 9⟩, initState) := by
  refine ⟨rfl, rfl, by decide, by decide⟩

/-- C8, amended: for every call to `invoke` of a callable **with a body**, an
argument count that neither equals the fixed parameter count nor exceeds it
with the callable variadic is a fatal precondition failure (the run aborts,
producing nothing). -/
theorem C8_arg_count_fatal (fuel : Nat) (prog : Program) (σ : InterpState)
    (fid : Nat) (args : List DynamicValue) (f : Function)
    (hf : findVal prog.module.funcs fid = some f)
    (hbody : f.body.isEmpty = false)
    (hpre : ¬(args.length = f.params.length ∨
      (f.params.length < args.length ∧ f.isVarArg = true))) :
    callFunction fuel prog σ fid args = none := by
  cases fuel with
  | zero => rfl
  | succ n =>
    simp only [callFunction, Option.bind_eq_bind, hf, Option.some_bind, hbody,
      Bool.false_eq_true, if_false, if_neg hpre]

/-- Function with a body used by the C8 amended witness. -/
def C8bodyFun : Function := ⟨[1], false, Ty.funTy, [⟨[], [], Terminator.ret none⟩]⟩

/-- Program used by the C8 amended witness. -/
def C8bodyProg : Program :=
  ⟨⟨[], [(0, C8bodyFun)]⟩, fun _ => 8, fun _ _ => DynamicValue.undef⟩

/-- Witness for the amended C8: a 1-parameter non-variadic defined function
invoked with zero arguments aborts fatally. -/
theorem C8_arg_count_fatal_witness :
    callFunction 5 C8bodyProg initState 0 [] = none :=
  C8_arg_count_fatal 5 C8bodyProg initState 0 [] C8bodyFun (by decide)
    (by decide) (by decide)

/-! ### C9: switch dispatch -/

theorem APIntM.eq_iff (a b : APIntM) :
    a = b ↔ (a.width = b.width ∧ a.val = b.val) := by
  cases a; cases b; simp

theorem scanCases_eq_find (condInt : APIntM) (dflt : Nat) :
    ∀ cases : List (APIntM × Nat),
    scanCases condInt dflt cases =
      (match cases.find?
          (fun c => decide (condInt.width = c.1.width ∧ condInt.val = c.1.val))
        with
       | some c => c.2
       | none => dflt)
  | [] => rfl
  | (caseInt, dst) :: rest => by
    by_cases h : condInt = caseInt
    · have hb : decide (condInt.width = caseInt.width ∧
          condInt.val = caseInt.val) = true := by
        rw [decide_eq_true_eq]
        exact (APIntM.eq_iff condInt caseInt).mp h
      simp [scanCases, List.find?, h, hb]
    · have hb : decide (condInt.width = caseInt.width ∧
          condInt.val = caseInt.val) = false := by
        rw [decide_eq_false_iff_not]
        exact fun hc => h ((APIntM.eq_iff condInt caseInt).mpr hc)
      simp [scanCases, List.find?, h, hb, scanCases_eq_find condInt dflt rest]

/-- C9.  At a multi-way switch terminator the engine evaluates the selector's
integer value and transfers control (through the merge-instruction pass) to
the successor chosen by scanning the case list in declaration order for the
first case whose constant equals the selector exactly (bit width and full
value); when no case matches — in particular for an empty case list — the
declared default block is chosen. -/
theorem C9_switch_dispatch (fuel : Nat) (prog : Program) (f : Function)
    (σ σ1 : InterpState) (cur : Nat) (bb : BasicBlock) (cond : Operand)
    (cases : List (APIntM × Nat)) (dflt : Nat) (fr1 : StackFrame)
    (rest : List StackFrame) (ci : APIntM)
    (hbb : f.body.get? cur = some bb)
    (hterm : bb.term = Terminator.switch cond cases dflt)
    (hexec : execInsts fuel prog σ bb.insts = some σ1)
    (hstk : σ1.stack = fr1 :: rest)
    (hci : (evaluateOperand fr1 cond).getAsIntValue = some ci) :
    runLoop (fuel+1) prog f σ cur =
      (enterBlock f σ1 cur (scanCases ci dflt cases)).bind
        (fun σ2 => runLoop fuel prog f σ2 (scanCases ci dflt cases)) ∧
    scanCases ci dflt cases =
      (match cases.find?
          (fun c => decide (ci.width = c.1.width ∧ ci.val = c.1.val)) with
       | some c => c.2
       | none => dflt) ∧
    (cases = [] → scanCases ci dflt cases = dflt) := by
  have hhead : σ1.stack.head? = some fr1 := by rw [hstk]; rfl
  refine ⟨?_, scanCases_eq_find ci dflt cases, ?_⟩
  · simp only [runLoop, Option.bind_eq_bind, hbb, Option.some_bind, hexec,
      hterm, hhead, hci]
  · rintro rfl
    rfl

/-- Selector value of the C9 witness. -/
def C9ci : APIntM := ⟨8, 2⟩

/-- Case list of the C9 witness: case 2 appears twice, with distinct
successors, after a non-matching case. -/
def C9cases : List (APIntM × Nat) := [(⟨8, 1⟩, 1), (⟨8, 2⟩, 2), (⟨8, 2⟩, 3)]

/-- Function used by the C9 witness: the entry block ends in a switch whose
selector is the constant 2 (8 bits wide). -/
def C9fun : Function :=
  ⟨[], false, Ty.funTy,
   [⟨[], [], Terminator.switch (Operand.const (DynamicValue.intVal ⟨8, 2⟩))
      C9cases 1⟩,
    ⟨[], [], Terminator.ret (some (Operand.const (DynamicValue.intVal ⟨8, 10⟩)))⟩,
    ⟨[], [], Terminator.ret (some (Operand.const (DynamicValue.intVal ⟨8, 20⟩)))⟩,
    ⟨[], [], Terminator.ret (some (Operand.const (DynamicValue.intVal ⟨8, 30⟩)))⟩]⟩

/-- Program used by the C9 witness. -/
def C9prog : Program :=
  ⟨⟨[], [(0, C9fun)]⟩, fun _ => 8, fun _ _ => DynamicValue.undef⟩

/-- State used by the C9 witness: one frame running `C9fun`. -/
def C9state : InterpState :=
  ⟨⟨0, []⟩, ⟨0, []⟩, [⟨C9fun, [], [], 0⟩], [], [], 1, 0⟩

/-- Witness for C9: the concrete switch takes the first matching case (the
successor 2, not 3), as both the dispatch equation and the scan
characterization state. -/
theorem C9_switch_dispatch_witness :
    (runLoop 4 C9prog C9fun C9state 0 =
      (enterBlock C9fun C9state 0 (scanCases C9ci 1 C9cases)).bind
        (fun σ2 => runLoop 3 C9prog C9fun σ2 (scanCases C9ci 1 C9cases)) ∧
     scanCases C9ci 1 C9cases =
      (match C9cases.find?
          (fun c => decide (C9ci.width = c.1.width ∧ C9ci.val = c.1.val)) with
       | some c => c.2
       | none => 1) ∧
     (C9cases = [] → scanCases C9ci 1 C9cases = 1)) ∧
    scanCases C9ci 1 C9cases = 2 ∧
    runLoop 4 C9prog C9fun C9state 0 =
      some (DynamicValue.intVal ⟨8, 20⟩, ⟨⟨0, []⟩, ⟨0, []⟩, [], [], [], 1, 1⟩) :=
  ⟨C9_switch_dispatch 3 C9prog C9fun C9state C9state 0
      ⟨[], [], Terminator.switch (Operand.const (DynamicValue.intVal ⟨8, 2⟩))
        C9cases 1⟩
      (Operand.const (DynamicValue.intVal ⟨8, 2⟩))
      C9cases 1 ⟨C9fun, [], [], 0⟩ [] C9ci
      (by decide) (by decide) (by decide) (by decide) (by decide),
   by decide, by decide⟩

/-! ### C3: return semantics -/

/-- C3.  At a return terminator, after the block's straight-line instructions
have run: the returned operand (when present) is evaluated against the frame
that is *still current* at that point; then that frame is popped, its entire
claimed stack allocation released as a single batch (`deallocate` of its
recorded total), and the loop produces the evaluated value — or the explicit
undefined marker when the instruction carries no value. -/
theorem C3_return_semantics (fuel : Nat) (prog : Program) (f : Function)
    (σ σ1 : InterpState) (cur : Nat) (bb : BasicBlock) (v : Option Operand)
    (fr1 : StackFrame) (rest : List StackFrame)
    (hbb : f.body.get? cur = some bb)
    (hterm : bb.term = Terminator.ret v)
    (hexec : execInsts fuel prog σ bb.insts = some σ1)
    (hstk : σ1.stack = fr1 :: rest) :
    runLoop (fuel+1) prog f σ cur =
      some ((match v with
             | none => DynamicValue.undef
             | some op => evaluateOperand fr1 op),
        { σ1 with stackMem := σ1.stackMem.deallocate fr1.allocationSize,
                  stack := rest,
                  popCount := σ1.popCount + 1 }) ∧
    (σ1.stackMem.deallocate fr1.allocationSize).mark =
      σ1.stackMem.mark - fr1.allocationSize := by
  have hhead : σ1.stack.head? = some fr1 := by rw [hstk]; rfl
  constructor
  · simp only [runLoop, Option.bind_eq_bind, hbb, Option.some_bind, hexec,
      hterm, hhead, popStack, hstk, List.head?_cons]
    cases v <;> rfl
  · rfl

/-- Function used by the C3 witness: binds 7 to value 5, then returns it. -/
def C3fun : Function :=
  ⟨[], false, Ty.funTy,
   [⟨[], [Instr.assign 7 (Operand.const (DynamicValue.intVal ⟨32, 5⟩))],
     Terminator.ret (some (Operand.var 7))⟩]⟩

/-- Program used by the C3 witness. -/
def C3prog : Program :=
  ⟨⟨[], [(0, C3fun)]⟩, fun _ => 8, fun _ _ => DynamicValue.undef⟩

/-- Initial state of the C3 witness: one frame with 12 claimed bytes on a
stack allocator whose mark is 12. -/
def C3state : InterpState :=
  ⟨⟨12, []⟩, ⟨0, []⟩, [⟨C3fun, [], [], 12⟩], [], [], 1, 0⟩

/-- State of the C3 witness after the straight-line instruction ran. -/
def C3state1 : InterpState :=
  ⟨⟨12, []⟩, ⟨0, []⟩,
   [⟨C3fun, [(7, DynamicValue.intVal ⟨32, 5⟩)], [], 12⟩], [], [], 1, 0⟩

/-- Witness for C3: the concrete return produces the value of binding 7 as
evaluated in the still-current frame, pops that frame and releases its entire
12-byte claim in one batch (the stack mark drops from 12 to 0). -/
theorem C3_return_semantics_witness :
    (runLoop 3 C3prog C3fun C3state 0 =
      some ((match some (Operand.var 7) with
             | none => DynamicValue.undef
             | some op => evaluateOperand ⟨C3fun, [(7, DynamicValue.intVal ⟨32, 5⟩)], [], 12⟩ op),
        { C3state1 with
            stackMem := C3state1.stackMem.deallocate 12,
            stack := [],
            popCount := C3state1.popCount + 1 }) ∧
     (C3state1.stackMem.deallocate 12).mark = C3state1.stackMem.mark - 12) ∧
    runLoop 3 C3prog C3fun C3state 0 =
      some (DynamicValue.intVal ⟨32, 5⟩, ⟨⟨0, []⟩, ⟨0, []⟩, [], [], [], 1, 1⟩) :=
  ⟨C3_return_semantics 2 C3prog C3fun C3state C3state1 0
      ⟨[], [Instr.assign 7 (Operand.const (DynamicValue.intVal ⟨32, 5⟩))],
        Terminator.ret (some (Operand.var 7))⟩
      (some (Operand.var 7))
      ⟨C3fun, [(7, DynamicValue.intVal ⟨32, 5⟩)], [], 12⟩ []
      (by decide) (by decide) (by decide) (by decide),
   by decide⟩

/-! ### C2: stack discipline -/

theorem bindArgs_preserve :
    ∀ (params : List Nat) (args : List DynamicValue) (fr : StackFrame),
    (bindArgs params args fr).allocationSize = fr.allocationSize ∧
    (bindArgs params args fr).func = fr.func
  | [], args, fr => by
    rw [bindArgs, foldl_insertVararg args fr]
    exact ⟨rfl, rfl⟩
  | _ :: _, [], fr => ⟨rfl, rfl⟩
  | p :: ps, a :: as, fr => by
    rw [bindArgs]
    simpa [StackFrame.insertBinding] using
      bindArgs_preserve ps as (fr.insertBinding p a)

theorem popStack_spec (σ σ2 : InterpState) (fr : StackFrame)
    (rest : List StackFrame) (hstk : σ.stack = fr :: rest)
    (h : popStack σ = some σ2) :
    σ2 = { σ with stackMem := σ.stackMem.deallocate fr.allocationSize,
                  stack := rest, popCount := σ.popCount + 1 } := by
  simp only [popStack, hstk, Option.some.injEq] at h
  exact h.symm

theorem switchToNewBasicBlock_fields (fr fr2 : StackFrame) (prev : Nat)
    (bb : BasicBlock) (h : switchToNewBasicBlock fr prev bb = some fr2) :
    fr2.func = fr.func ∧ fr2.varargs = fr.varargs ∧
    fr2.allocationSize = fr.allocationSize := by
  simp only [switchToNewBasicBlock, Option.bind_eq_bind, Option.bind_eq_some,
    Option.some.injEq] at h
  obtain ⟨cache, _, rfl⟩ := h
  exact commitPhiCache_func cache fr

theorem enterBlock_spec (f : Function) (σ σ2 : InterpState) (prev dest : Nat)
    (fr : StackFrame) (rest : List StackFrame)
    (h : enterBlock f σ prev dest = some σ2) (hstk : σ.stack = fr :: rest) :
    ∃ fr2, σ2 = { σ with stack := fr2 :: rest } ∧
      fr2.allocationSize = fr.allocationSize ∧ fr2.func = fr.func := by
  have hhead : σ.stack.head? = some fr := by rw [hstk]; rfl
  simp only [enterBlock, Option.bind_eq_bind, Option.bind_eq_some,
    Option.some.injEq, hhead] at h
  obtain ⟨bb, hbb, fr', hfr', fr2, hsw, hset⟩ := h
  cases hfr'
  have hf := switchToNewBasicBlock_fields fr fr2 prev bb hsw
  refine ⟨fr2, ?_, hf.2.2, hf.1⟩
  rw [← hset]
  simp [InterpState.setCurrentFrame, hstk]

/-- The inductive stack-discipline invariant, proved for all components of the
mutual execution-loop recursion simultaneously by induction on fuel:
a completed call restores the stack and the allocator mark exactly and pushes
as many frames as it pops; within one frame, straight-line execution grows the
frame's recorded claim and the allocator mark by the same amount; a completed
function run pops exactly its own frame and releases exactly its recorded
claim. -/
theorem balanced : ∀ fuel : Nat,
    (∀ (prog : Program) (σ : InterpState) (fid : Nat)
       (args : List DynamicValue) (out : DynamicValue × InterpState),
       callFunction fuel prog σ fid args = some out →
       out.2.stack = σ.stack ∧
       out.2.stackMem.mark = σ.stackMem.mark ∧
       ∃ k, out.2.pushCount = σ.pushCount + k ∧
            out.2.popCount = σ.popCount + k) ∧
    (∀ (prog : Program) (σ : InterpState)
       (out : DynamicValue × InterpState) (fr : StackFrame)
       (rest : List StackFrame),
       runFunction fuel prog σ = some out →
       σ.stack = fr :: rest →
       out.2.stack = rest ∧
       out.2.stackMem.mark = σ.stackMem.mark - fr.allocationSize ∧
       ∃ k, out.2.pushCount = σ.pushCount + k ∧
            out.2.popCount = σ.popCount + k + 1) ∧
    (∀ (prog : Program) (f : Function) (σ : InterpState) (cur : Nat)
       (out : DynamicValue × InterpState) (fr : StackFrame)
       (rest : List StackFrame),
       runLoop fuel prog f σ cur = some out →
       σ.stack = fr :: rest →
       out.2.stack = rest ∧
       out.2.stackMem.mark = σ.stackMem.mark - fr.allocationSize ∧
       ∃ k, out.2.pushCount = σ.pushCount + k ∧
            out.2.popCount = σ.popCount + k + 1) ∧
    (∀ (prog : Program) (σ : InterpState) (insts : List Instr)
       (σ1 : InterpState) (fr : StackFrame) (rest : List StackFrame),
       execInsts fuel prog σ insts = some σ1 →
       σ.stack = fr :: rest →
       ∃ fr1 d k, σ1.stack = fr1 :: rest ∧
         fr1.allocationSize = fr.allocationSize + d ∧
         σ1.stackMem.mark = σ.stackMem.mark + d ∧
         σ1.pushCount = σ.pushCount + k ∧
         σ1.popCount = σ.popCount + k) ∧
    (∀ (prog : Program) (σ : InterpState) (i : Instr) (σ1 : InterpState)
       (fr : StackFrame) (rest : List StackFrame),
       evalInstr fuel prog σ i = some σ1 →
       σ.stack = fr :: rest →
       ∃ fr1 d k, σ1.stack = fr1 :: rest ∧
         fr1.allocationSize = fr.allocationSize + d ∧
         σ1.stackMem.mark = σ.stackMem.mark + d ∧
         σ1.pushCount = σ.pushCount + k ∧
         σ1.popCount = σ.popCount + k) := by
  intro fuel
  induction fuel with
  | zero =>
    exact ⟨fun _ _ _ _ _ h => Option.noConfusion h,
           fun _ _ _ _ _ h _ => Option.noConfusion h,
           fun _ _ _ _ _ _ _ h _ => Option.noConfusion h,
           fun _ _ _ _ _ _ h _ => Option.noConfusion h,
           fun _ _ _ _ _ _ h _ => Option.noConfusion h⟩
  | succ n ih =>
    obtain ⟨ihc, ihr, ihl, ihe, ihi⟩ := ih
    refine ⟨?_, ?_, ?_, ?_, ?_⟩
    -- callFunction
    · intro prog σ fid args out h
      simp only [callFunction, Option.bind_eq_bind, Option.bind_eq_some] at h
      obtain ⟨f, hf, h⟩ := h
      by_cases hb : f.body.isEmpty = true
      · rw [if_pos hb] at h
        obtain rfl := Option.some.inj h
        exact ⟨rfl, rfl, 0, rfl, rfl⟩
      · rw [if_neg hb] at h
        split at h
        · have hrun := ihr prog _ out
            (bindArgs f.params args (StackFrame.mk f [] [] 0)) σ.stack h rfl
          have halloc :=
            (bindArgs_preserve f.params args (StackFrame.mk f [] [] 0)).1
          obtain ⟨hstk, hmark, k, hpush, hpop⟩ := hrun
          refine ⟨hstk, ?_, k + 1, ?_, ?_⟩
          · simpa [halloc] using hmark
          · simpa [Nat.add_assoc, Nat.add_comm 1 k] using hpush
          · simpa [Nat.add_assoc, Nat.add_comm 1 k] using hpop
        · exact Option.noConfusion h
    -- runFunction
    · intro prog σ out fr rest h hstk
      have hhead : σ.stack.head? = some fr := by rw [hstk]; rfl
      simp only [runFunction, Option.bind_eq_bind, hhead, Option.some_bind] at h
      exact ihl prog fr.func σ 0 out fr rest h hstk
    -- runLoop
    · intro prog f σ cur out fr rest h hstk
      simp only [runLoop, Option.bind_eq_bind, Option.bind_eq_some] at h
      obtain ⟨bb, hbb, σ1, hexec, h⟩ := h
      obtain ⟨fr1, d, k1, hstk1, halloc1, hmark1, hpush1, hpop1⟩ :=
        ihe prog σ bb.insts σ1 fr rest hexec hstk
      have hhead1 : σ1.stack.head? = some fr1 := by rw [hstk1]; rfl
      obtain ⟨phis, insts, term⟩ := bb
      cases term with
      | ret v =>
        simp only [hhead1, Option.bind_eq_bind, Option.some_bind,
          Option.bind_eq_some, Option.some.injEq] at h
        obtain ⟨σ2, hpop, hout⟩ := h
        have hσ2 := popStack_spec σ1 σ2 fr1 rest hstk1 hpop
        rw [← hout, hσ2]
        refine ⟨rfl, ?_, k1, ?_, ?_⟩
        · simp only [MemorySection.deallocate, hmark1, halloc1]
          omega
        · exact hpush1
        · rw [hpop1]
      | br dest =>
        simp only [Option.bind_eq_bind, Option.bind_eq_some] at h
        obtain ⟨σ2, henter, hrun⟩ := h
        obtain ⟨fr2, hσ2, halloc2, _⟩ :=
          enterBlock_spec f σ1 σ2 cur dest fr1 rest henter hstk1
        subst hσ2
        obtain ⟨hstk', hmark', k2, hpush', hpop'⟩ :=
          ihl prog f _ dest out fr2 rest hrun rfl
        refine ⟨hstk', ?_, k1 + k2, ?_, ?_⟩
        · simp only [hmark'] at *
          rw [halloc2, halloc1, hmark1]
          omega
        · simp only [hpush'] at *
          omega
        · simp only [hpop'] at *
          omega
      | condBr cond s0 s1 =>
        simp only [hhead1, Option.bind_eq_bind, Option.some_bind,
          Option.bind_eq_some] at h
        obtain ⟨ci, _, σ2, henter, hrun⟩ := h
        obtain ⟨fr2, hσ2, halloc2, _⟩ :=
          enterBlock_spec f σ1 σ2 cur _ fr1 rest henter hstk1
        subst hσ2
        obtain ⟨hstk', hmark', k2, hpush', hpop'⟩ :=
          ihl prog f _ _ out fr2 rest hrun rfl
        refine ⟨hstk', ?_, k1 + k2, ?_, ?_⟩
        · simp only [hmark'] at *
          rw [halloc2, halloc1, hmark1]
          omega
        · simp only [hpush'] at *
          omega
        · simp only [hpop'] at *
          omega
      | switch cond cases dflt =>
        simp only [hhead1, Option.bind_eq_bind, Option.some_bind,
          Option.bind_eq_some] at h
        obtain ⟨ci, _, σ2, henter, hrun⟩ := h
        obtain ⟨fr2, hσ2, halloc2, _⟩ :=
          enterBlock_spec f σ1 σ2 cur _ fr1 rest henter hstk1
        subst hσ2
        obtain ⟨hstk', hmark', k2, hpush', hpop'⟩ :=
          ihl prog f _ _ out fr2 rest hrun rfl
        refine ⟨hstk', ?_, k1 + k2, ?_, ?_⟩
        · simp only [hmark'] at *
          rw [halloc2, halloc1, hmark1]
          omega
        · simp only [hpush'] at *
          omega
        · simp only [hpop'] at *
          omega
      | unreachableT => exact Option.noConfusion h
      | indirectBrT => exact Option.noConfusion h
      | invokeT => exact Option.noConfusion h
      | resumeT => exact Option.noConfusion h
    -- execInsts
    · intro prog σ insts σ1 fr rest h hstk
      cases insts with
      | nil =>
        simp only [execInsts, Option.some.injEq] at h
        rw [← h]
        exact ⟨fr, 0, 0, hstk, rfl, rfl, rfl, rfl⟩
      | cons i tl =>
        simp only [execInsts, Option.bind_eq_bind, Option.bind_eq_some] at h
        obtain ⟨σm, hi, htl⟩ := h
        obtain ⟨frm, d1, k1, hstkm, hallocm, hmarkm, hpushm, hpopm⟩ :=
          ihi prog σ i σm fr rest hi hstk
        obtain ⟨fr1, d2, k2, hstk1, halloc1, hmark1, hpush1, hpop1⟩ :=
          ihe prog σm tl σ1 frm rest htl hstkm
        exact ⟨fr1, d1 + d2, k1 + k2, hstk1, by omega, by omega, by omega,
          by omega⟩
    -- evalInstr
    · intro prog σ i σ1 fr rest h hstk
      have hhead : σ.stack.head? = some fr := by rw [hstk]; rfl
      cases i with
      | assign r op =>
        simp only [evalInstr, hhead, Option.bind_eq_bind, Option.some_bind,
          Option.some.injEq] at h
        rw [← h]
        refine ⟨fr.insertBinding r (evaluateOperand fr op), 0, 0, ?_,
          by simp [StackFrame.insertBinding], rfl, rfl, rfl⟩
        simp [InterpState.setCurrentFrame, hstk]
      | alloca r size =>
        simp only [evalInstr, hhead, Option.bind_eq_bind, Option.some_bind,
          Option.some.injEq] at h
        rw [← h]
        refine ⟨(allocateStackMem fr σ.stackMem size).1.insertBinding r
          (DynamicValue.ptr (allocateStackMem fr σ.stackMem size).2.1),
          size, 0, ?_, ?_, ?_, rfl, rfl⟩
        · simp [InterpState.setCurrentFrame, hstk]
        · simp [StackFrame.insertBinding, allocateStackMem,
            StackFrame.increaseAllocationSize]
        · simp [allocateStackMem, MemorySection.allocate,
            InterpState.setCurrentFrame]
      | call r callee ops =>
        simp only [evalInstr, hhead, Option.bind_eq_bind, Option.some_bind,
          Option.bind_eq_some, Option.some.injEq] at h
        obtain ⟨vσ, hcall, hσ1⟩ := h
        obtain ⟨hstkc, hmarkc, k, hpushc, hpopc⟩ :=
          ihc prog σ callee (ops.map (evaluateOperand fr)) vσ hcall
        have hheadc : vσ.2.stack.head? = some fr := by
          rw [hstkc, hstk]; rfl
        simp only [hheadc, Option.bind_eq_bind, Option.some_bind,
          Option.bind_eq_some, Option.some.injEq] at hσ1
        obtain ⟨fr', hfr', hσ1⟩ := hσ1
        cases hfr'
        rw [← hσ1]
        refine ⟨fr.insertBinding r vσ.1, 0, k, ?_,
          by simp [StackFrame.insertBinding], by simpa using hmarkc,
          by simpa using hpushc, by simpa using hpopc⟩
        simp [InterpState.setCurrentFrame, hstkc, hstk]

/-- C2.  (i) Every invocation that returns normally, at any nesting depth,
restores the call stack to exactly its prior frames (so the number of frames
pushed equals the number popped, as the ghost counters state) and restores the
stack allocator's claimed-byte total (its mark) to its pre-call value.
(ii) `allocateStackMem` grows the frame's recorded claimed-byte total and the
allocator's claim by exactly the requested size, so the recorded total is the
sum of the sizes the frame requested.  (iii) `popStack` pops exactly the
current frame and releases exactly its recorded claimed-byte total. -/
theorem C2_stack_discipline :
    (∀ (fuel : Nat) (prog : Program) (σ : InterpState) (fid : Nat)
       (args : List DynamicValue) (out : DynamicValue × InterpState),
       callFunction fuel prog σ fid args = some out →
       out.2.stack = σ.stack ∧
       out.2.stackMem.mark = σ.stackMem.mark ∧
       ∃ k, out.2.pushCount = σ.pushCount + k ∧
            out.2.popCount = σ.popCount + k) ∧
    (∀ (fr : StackFrame) (mem : MemorySection) (size : Nat),
       (allocateStackMem fr mem size).1.allocationSize =
         fr.allocationSize + size ∧
       (allocateStackMem fr mem size).2.2.mark = mem.mark + size) ∧
    (∀ (σ σ2 : InterpState) (fr : StackFrame) (rest : List StackFrame),
       σ.stack = fr :: rest → popStack σ = some σ2 →
       σ2.stack = rest ∧
       σ2.stackMem.mark = σ.stackMem.mark - fr.allocationSize) := by
  refine ⟨fun fuel => (balanced fuel).1, fun fr mem size => ⟨rfl, rfl⟩,
    fun σ σ2 fr rest hstk h => ?_⟩
  rw [popStack_spec σ σ2 fr rest hstk h]
  exact ⟨rfl, rfl⟩

/-- Inner function of the C2 witness: claims 4 stack bytes, then returns. -/
def C2inner : Function :=
  ⟨[], false, Ty.funTy, [⟨[], [Instr.alloca 2 4], Terminator.ret none⟩]⟩

/-- Outer function of the C2 witness: calls the inner one, then returns. -/
def C2outer : Function :=
  ⟨[], false, Ty.funTy, [⟨[], [Instr.call 3 1 []], Terminator.ret none⟩]⟩

/-- Program of the C2 witness. -/
def C2prog : Program :=
  ⟨⟨[], [(0, C2outer), (1, C2inner)]⟩, fun _ => 8, fun _ _ => DynamicValue.undef⟩

/-- Start state of the C2 witness: stack allocator mark 16, counters at 3. -/
def C2start : InterpState := ⟨⟨16, []⟩, ⟨0, []⟩, [], [], [], 3, 3⟩

/-- Result of the C2 witness invocation: the mark is back to 16 and both
counters advanced by the same amount. -/
def C2out : DynamicValue × InterpState :=
  (DynamicValue.undef, ⟨⟨16, []⟩, ⟨0, []⟩, [], [], [], 5, 5⟩)

/-- State popped by the C2 witness' `popStack` component. -/
def C2popme : InterpState :=
  ⟨⟨20, []⟩, ⟨0, []⟩, [⟨C2inner, [], [], 4⟩], [], [], 1, 0⟩

/-- Witness for C2: the nested invocation (outer calls inner, which claims 4
stack bytes) restores the stack and the mark and balances the counters; a
concrete `allocateStackMem` and a concrete `popStack` show components (ii) and
(iii). -/
theorem C2_stack_discipline_witness :
    (C2out.2.stack = C2start.stack ∧
     C2out.2.stackMem.mark = C2start.stackMem.mark ∧
     ∃ k, C2out.2.pushCount = C2start.pushCount + k ∧
          C2out.2.popCount = C2start.popCount + k) ∧
    ((allocateStackMem ⟨C2inner, [], [], 0⟩ ⟨16, []⟩ 4).1.allocationSize =
       (⟨C2inner, [], [], 0⟩ : StackFrame).allocationSize + 4 ∧
     (allocateStackMem ⟨C2inner, [], [], 0⟩ ⟨16, []⟩ 4).2.2.mark =
       (⟨16, []⟩ : MemorySection).mark + 4) ∧
    ((⟨⟨16, []⟩, ⟨0, []⟩, [], [], [], 1, 1⟩ : InterpState).stack = [] ∧
     (⟨⟨16, []⟩, ⟨0, []⟩, [], [], [], 1, 1⟩ : InterpState).stackMem.mark =
       C2popme.stackMem.mark - (⟨C2inner, [], [], 4⟩ : StackFrame).allocationSize) :=
  ⟨C2_stack_discipline.1 10 C2prog C2start 0 [] C2out (by decide),
   C2_stack_discipline.2.1 ⟨C2inner, [], [], 0⟩ ⟨16, []⟩ 4,
   C2_stack_discipline.2.2 C2popme ⟨⟨16, []⟩, ⟨0, []⟩, [], [], [], 1, 1⟩
     ⟨C2inner, [], [], 4⟩ [] (by decide) (by decide)⟩

/-! ### C10: entry-block merge instructions are skipped -/

/-- The result identity an instruction writes in the current frame. -/
def Instr.resultId : Instr → Nat
  | .alloca r _ => r
  | .assign r _ => r
  | .call r _ _ => r

theorem findVal_zip_not_mem :
    ∀ (ps : List Nat) (as : List DynamicValue) (x : Nat), x ∉ ps →
    findVal (ps.zip as) x = none
  | [], _, _, _ => rfl
  | _ :: _, [], _, _ => rfl
  | p :: ps, a :: as, x, hx => by
    simp only [List.mem_cons, not_or] at hx
    have hne : ¬(p = x) := fun he => hx.1 he.symm
    simp only [List.zip_cons_cons, findVal, if_neg hne]
    exact findVal_zip_not_mem ps as x hx.2

/-- Bindings whose identity no instruction of a straight-line run writes are
preserved by that run (nested calls restore the surrounding frame exactly and
only then write their own result binding). -/
theorem bindings_preserved : ∀ fuel : Nat,
    (∀ (prog : Program) (σ : InterpState) (insts : List Instr)
       (σ1 : InterpState) (fr : StackFrame) (rest : List StackFrame) (x : Nat),
       execInsts fuel prog σ insts = some σ1 →
       σ.stack = fr :: rest →
       x ∉ insts.map Instr.resultId →
       ∃ fr1, σ1.stack = fr1 :: rest ∧
         findVal fr1.bindings x = findVal fr.bindings x) ∧
    (∀ (prog : Program) (σ : InterpState) (i : Instr) (σ1 : InterpState)
       (fr : StackFrame) (rest : List StackFrame) (x : Nat),
       evalInstr fuel prog σ i = some σ1 →
       σ.stack = fr :: rest →
       x ≠ i.resultId →
       ∃ fr1, σ1.stack = fr1 :: rest ∧
         findVal fr1.bindings x = findVal fr.bindings x) := by
  intro fuel
  induction fuel with
  | zero =>
    exact ⟨fun _ _ _ _ _ _ _ h _ _ => Option.noConfusion h,
           fun _ _ _ _ _ _ _ h _ _ => Option.noConfusion h⟩
  | succ n ih =>
    obtain ⟨ihe, ihi⟩ := ih
    constructor
    · intro prog σ insts σ1 fr rest x h hstk hx
      cases insts with
      | nil =>
        simp only [execInsts, Option.some.injEq] at h
        exact ⟨fr, by rw [← h, hstk], rfl⟩
      | cons i tl =>
        simp only [List.map_cons, List.mem_cons, not_or] at hx
        simp only [execInsts, Option.bind_eq_bind, Option.bind_eq_some] at h
        obtain ⟨σm, hi, htl⟩ := h
        obtain ⟨frm, hstkm, hlm⟩ := ihi prog σ i σm fr rest x hi hstk hx.1
        obtain ⟨fr1, hstk1, hl1⟩ := ihe prog σm tl σ1 frm rest x htl hstkm hx.2
        exact ⟨fr1, hstk1, hl1.trans hlm⟩
    · intro prog σ i σ1 fr rest x h hstk hx
      have hhead : σ.stack.head? = some fr := by rw [hstk]; rfl
      cases i with
      | assign r op =>
        simp only [evalInstr, hhead, Option.bind_eq_bind, Option.some_bind,
          Option.some.injEq] at h
        refine ⟨fr.insertBinding r (evaluateOperand fr op), ?_, ?_⟩
        · rw [← h]
          simp [InterpState.setCurrentFrame, hstk]
        · exact findVal_insertAssoc_ne r x _ (fun he => hx he.symm) fr.bindings
      | alloca r size =>
        simp only [evalInstr, hhead, Option.bind_eq_bind, Option.some_bind,
          Option.some.injEq] at h
        refine ⟨(allocateStackMem fr σ.stackMem size).1.insertBinding r
          (DynamicValue.ptr (allocateStackMem fr σ.stackMem size).2.1), ?_, ?_⟩
        · rw [← h]
          simp [InterpState.setCurrentFrame, hstk]
        · exact findVal_insertAssoc_ne r x _ (fun he => hx he.symm) fr.bindings
      | call r callee ops =>
        simp only [evalInstr, hhead, Option.bind_eq_bind, Option.some_bind,
          Option.bind_eq_some, Option.some.injEq] at h
        obtain ⟨vσ, hcall, hσ1⟩ := h
        have hstkc : vσ.2.stack = fr :: rest :=
          ((balanced n).1 prog σ callee _ vσ hcall).1.trans hstk
        have hheadc : vσ.2.stack.head? = some fr := by rw [hstkc]; rfl
        simp only [hheadc, Option.bind_eq_bind, Option.some_bind,
          Option.bind_eq_some, Option.some.injEq] at hσ1
        obtain ⟨fr', hfr', hσ1⟩ := hσ1
        cases hfr'
        refine ⟨fr.insertBinding r vσ.1, ?_, ?_⟩
        · rw [← hσ1]
          simp [InterpState.setCurrentFrame, hstkc]
        · exact findVal_insertAssoc_ne r x _ (fun he => hx he.symm) fr.bindings

/-- C10.  Invoking a function whose entry block begins with merge (PHI)
instructions: (i) the run proceeds directly to the execution loop on the entry
block with no merge-instruction pass — the pushed frame binds only the
parameters; (ii) consequently, after the entry block's straight-line
instructions have executed (none of which writes the merge instruction's
identity), the merge instruction's result is still unbound in the current
frame: it was neither evaluated nor bound on first entry. -/
theorem C10_entry_phis_skipped (fuel : Nat) (prog : Program) (σ : InterpState)
    (fid : Nat) (args : List DynamicValue) (f : Function) (entry : BasicBlock)
    (x : Nat)
    (hf : findVal prog.module.funcs fid = some f)
    (hbody : f.body.isEmpty = false)
    (_hentry : f.body.get? 0 = some entry)
    (hnd : f.params.Nodup)
    (hpre : args.length = f.params.length ∨
      (f.params.length < args.length ∧ f.isVarArg = true))
    (_hx : x ∈ entry.phis.map PHINode.id)
    (hxp : x ∉ f.params)
    (hxw : x ∉ entry.insts.map Instr.resultId) :
    callFunction (fuel+2) prog σ fid args =
      runLoop fuel prog f
        { σ with stack := bindArgs f.params args ⟨f, [], [], 0⟩ :: σ.stack,
                 pushCount := σ.pushCount + 1 } 0 ∧
    (∀ (m : Nat) (σ1 : InterpState),
       execInsts m prog
         { σ with stack := bindArgs f.params args ⟨f, [], [], 0⟩ :: σ.stack,
                  pushCount := σ.pushCount + 1 }
         entry.insts = some σ1 →
       ∃ fr1, σ1.stack = fr1 :: σ.stack ∧ findVal fr1.bindings x = none) := by
  have hlen : f.params.length ≤ args.length := by
    rcases hpre with h | h
    · exact h.ge
    · exact Nat.le_of_lt h.1
  have hspec := bindArgs_spec f.params args ⟨f, [], [], 0⟩ hnd
    (by intro p _; rfl) hlen
  have hinit : findVal (bindArgs f.params args ⟨f, [], [], 0⟩).bindings x = none := by
    rw [hspec]
    simpa using findVal_zip_not_mem f.params args x hxp
  constructor
  · simp only [callFunction, Option.bind_eq_bind, hf, Option.some_bind, hbody,
      Bool.false_eq_true, if_false, if_pos hpre, runFunction, List.head?_cons,
      Option.some_bind]
    rw [(bindArgs_preserve f.params args ⟨f, [], [], 0⟩).2]
  · intro m σ1 hexec
    obtain ⟨fr1, hstk1, hl1⟩ := (bindings_preserved m).1 prog _ entry.insts σ1
      (bindArgs f.params args ⟨f, [], [], 0⟩) σ.stack x hexec rfl hxw
    exact ⟨fr1, hstk1, hl1.trans hinit⟩

/-- Function used by the C10 witness: the entry block starts with a merge
instruction (identity 9), runs one unrelated instruction, and returns the
merge instruction's value. -/
def C10fun : Function :=
  ⟨[1], false, Ty.funTy,
   [⟨[⟨9, [(0, Operand.const (DynamicValue.intVal ⟨8, 7⟩))]⟩],
     [Instr.assign 5 (Operand.var 1)],
     Terminator.ret (some (Operand.var 9))⟩]⟩

/-- Program used by the C10 witness. -/
def C10prog : Program :=
  ⟨⟨[], [(0, C10fun)]⟩, fun _ => 8, fun _ _ => DynamicValue.undef⟩

/-- Witness for C10: on the concrete function the invocation goes straight to
the loop with only the parameter bound, and after the entry block's
straight-line instruction the merge-instruction result 9 is still unbound. -/
theorem C10_entry_phis_skipped_witness :
    (callFunction 5 C10prog initState 0 [DynamicValue.intVal ⟨8, 1⟩] =
      runLoop 3 C10prog C10fun
        { initState with
            stack := bindArgs C10fun.params [DynamicValue.intVal ⟨8, 1⟩]
              ⟨C10fun, [], [], 0⟩ :: initState.stack,
            pushCount := initState.pushCount + 1 } 0 ∧
     (∀ (m : Nat) (σ1 : InterpState),
        execInsts m C10prog
          { initState with
              stack := bindArgs C10fun.params [DynamicValue.intVal ⟨8, 1⟩]
                ⟨C10fun, [], [], 0⟩ :: initState.stack,
              pushCount := initState.pushCount + 1 }
          (⟨[⟨9, [(0, Operand.const (DynamicValue.intVal ⟨8, 7⟩))]⟩],
            [Instr.assign 5 (Operand.var 1)],
            Terminator.ret (some (Operand.var 9))⟩ : BasicBlock).insts = some σ1 →
        ∃ fr1, σ1.stack = fr1 :: initState.stack ∧
          findVal fr1.bindings 9 = none)) ∧
    callFunction 5 C10prog initState 0 [DynamicValue.intVal ⟨8, 1⟩] =
      some (DynamicValue.undef, ⟨⟨0, []⟩, ⟨0, []⟩, [], [], [], 1, 1⟩) :=
  ⟨C10_entry_phis_skipped 3 C10prog initState 0 [DynamicValue.intVal ⟨8, 1⟩]
      C10fun
      ⟨[⟨9, [(0, Operand.const (DynamicValue.intVal ⟨8, 7⟩))]⟩],
       [Instr.assign 5 (Operand.var 1)],
       Terminator.ret (some (Operand.var 9))⟩ 9
      (by decide) (by decide) (by decide) (by decide) (by decide) (by decide)
      (by decide) (by decide),
   by decide⟩

/-! ### C4: re-initialization -/

theorem allocGlobalsLoop_stable (prog : Program) :
    ∀ (gs : List (Nat × GlobalVar)) (env env2 : List (GlobalKey × Nat))
    (mem : MemorySection) (out : List (GlobalKey × Nat) × MemorySection),
    allocGlobalsLoop prog gs env mem = some out →
    (∀ g ∈ gs, (findVal env2 (GlobalKey.gvar g.1)).isSome = true) →
    allocGlobalsLoop prog gs env2 mem = some (env2, out.2)
  | [], env, env2, mem, out, h, _ => by
    simp only [allocGlobalsLoop, Option.some.injEq] at h
    rw [← h]
    rfl
  | g :: rest, env, env2, mem, out, h, hpres => by
    simp only [allocGlobalsLoop, Option.bind_eq_bind, Option.bind_eq_some] at h
    obtain ⟨am, ham, hrest⟩ := h
    obtain ⟨w, hw⟩ := Option.isSome_iff_exists.mp
      (hpres g (List.mem_cons_self _ _))
    have h2 := allocGlobalsLoop_stable prog rest _ env2 am.2 out hrest
      (fun q hq => hpres q (List.mem_cons_of_mem _ hq))
    simp only [allocGlobalsLoop, Option.bind_eq_bind, ham, Option.some_bind,
      insertIfAbsent_of_present (GlobalKey.gvar g.1) am.1 w env2 hw]
    exact h2

theorem allocGlobalsLoop_keys (prog : Program) :
    ∀ (gs : List (Nat × GlobalVar)) (env : List (GlobalKey × Nat))
    (mem : MemorySection) (out : List (GlobalKey × Nat) × MemorySection),
    allocGlobalsLoop prog gs env mem = some out →
    (∀ g ∈ gs, (findVal out.1 (GlobalKey.gvar g.1)).isSome = true) ∧
    (∀ k v, findVal env k = some v → findVal out.1 k = some v) ∧
    (∃ d, out.1 = env ++ d)
  | [], env, mem, out, h => by
    simp only [allocGlobalsLoop, Option.some.injEq] at h
    rw [← h]
    exact ⟨fun g hg => absurd hg (List.not_mem_nil _),
      fun k v hv => hv, ⟨[], by simp⟩⟩
  | g :: rest, env, mem, out, h => by
    simp only [allocGlobalsLoop, Option.bind_eq_bind, Option.bind_eq_some] at h
    obtain ⟨am, ham, hrest⟩ := h
    obtain ⟨hkeys, hmono, d, hd⟩ := allocGlobalsLoop_keys prog rest _ am.2 out hrest
    refine ⟨?_, ?_, ?_⟩
    · intro q hq
      rcases List.mem_cons.mp hq with rfl | htail
      · obtain ⟨w, hw⟩ := Option.isSome_iff_exists.mp
          (findVal_insertIfAbsent_isSome (GlobalKey.gvar q.1) am.1 env)
        rw [hmono _ _ hw]
        rfl
      · exact hkeys q htail
    · intro k v hv
      exact hmono k v (findVal_insertIfAbsent_mono _ k am.1 v env hv)
    · obtain ⟨d2, hd2⟩ := insertIfAbsent_append (GlobalKey.gvar g.1) am.1 env
      exact ⟨d2 ++ d, by rw [hd, hd2, List.append_assoc]⟩

theorem allocFunsLoop_keys (prog : Program) :
    ∀ (fs : List (Nat × Function)) (env : List (GlobalKey × Nat))
    (fpm : List (Nat × Nat)) (mem : MemorySection)
    (out : List (GlobalKey × Nat) × List (Nat × Nat) × MemorySection),
    allocFunsLoop prog fs env fpm mem = some out →
    (∀ k v, findVal env k = some v → findVal out.1 k = some v) ∧
    (∀ a b, findVal fpm a = some b → findVal out.2.1 a = some b) ∧
    (∃ d, out.1 = env ++ d)
  | [], env, fpm, mem, out, h => by
    simp only [allocFunsLoop, Option.some.injEq] at h
    rw [← h]
    exact ⟨fun k v hv => hv, fun a b hb => hb, ⟨[], by simp⟩⟩
  | f :: rest, env, fpm, mem, out, h => by
    simp only [allocFunsLoop, Option.bind_eq_bind, Option.bind_eq_some] at h
    obtain ⟨am, ham, hrest⟩ := h
    obtain ⟨hmono, hfmono, d, hd⟩ := allocFunsLoop_keys prog rest _ _ am.2 out hrest
    refine ⟨?_, ?_, ?_⟩
    · intro k v hv
      exact hmono k v (findVal_insertIfAbsent_mono _ k am.1 v env hv)
    · intro a b hb
      exact hfmono a b (findVal_insertIfAbsent_mono _ a f.1 b fpm hb)
    · obtain ⟨d2, hd2⟩ := insertIfAbsent_append (GlobalKey.gfun f.1) am.1 env
      exact ⟨d2 ++ d, by rw [hd, hd2, List.append_assoc]⟩

theorem allocFunsLoop_fixpoint (prog : Program) :
    ∀ (fs : List (Nat × Function)) (env : List (GlobalKey × Nat))
    (fpm : List (Nat × Nat)) (mem : MemorySection)
    (out : List (GlobalKey × Nat) × List (Nat × Nat) × MemorySection),
    allocFunsLoop prog fs env fpm mem = some out →
    allocFunsLoop prog fs out.1 out.2.1 mem = some out
  | [], env, fpm, mem, out, h => by
    simp only [allocFunsLoop, Option.some.injEq] at h
    rw [← h]
    rfl
  | f :: rest, env, fpm, mem, out, h => by
    simp only [allocFunsLoop, Option.bind_eq_bind, Option.bind_eq_some] at h
    obtain ⟨am, ham, hrest⟩ := h
    obtain ⟨hmono, hfmono, _⟩ := allocFunsLoop_keys prog rest _ _ am.2 out hrest
    obtain ⟨w, hw⟩ := Option.isSome_iff_exists.mp
      (findVal_insertIfAbsent_isSome (GlobalKey.gfun f.1) am.1 env)
    obtain ⟨w2, hw2⟩ := Option.isSome_iff_exists.mp
      (findVal_insertIfAbsent_isSome am.1 f.1 fpm)
    have hpres := hmono _ _ hw
    have hpres2 := hfmono _ _ hw2
    simp only [allocFunsLoop, Option.bind_eq_bind, ham, Option.some_bind,
      insertIfAbsent_of_present (GlobalKey.gfun f.1) am.1 w out.1 hpres,
      insertIfAbsent_of_present am.1 f.1 w2 out.2.1 hpres2]
    exact allocFunsLoop_fixpoint prog rest _ _ am.2 out hrest

theorem evaluateConstant_extend (env d : List (GlobalKey × Nat))
    (c : Constant) (v : DynamicValue) (h : evaluateConstant env c = some v) :
    evaluateConstant (env ++ d) c = some v := by
  cases c with
  | intC i => exact h
  | undefC => exact h
  | globalRefC k =>
    simp only [evaluateConstant] at h ⊢
    cases hk : findVal env k with
    | none => rw [hk] at h; exact Option.noConfusion h
    | some a =>
      rw [hk] at h
      rw [findVal_append_of_isSome env d k a hk]
      exact h

theorem initGlobalsLoop_extend :
    ∀ (gs : List (Nat × GlobalVar)) (env d : List (GlobalKey × Nat))
    (mem mem2 : MemorySection),
    initGlobalsLoop gs env mem = some mem2 →
    initGlobalsLoop gs (env ++ d) mem = some mem2
  | [], _, _, _, _, h => h
  | g :: rest, env, d, mem, mem2, h => by
    simp only [initGlobalsLoop, Option.bind_eq_bind, Option.bind_eq_some] at h
    obtain ⟨addr, haddr, h⟩ := h
    simp only [initGlobalsLoop, Option.bind_eq_bind,
      findVal_append_of_isSome env d _ addr haddr, Option.some_bind]
    cases hi : g.2.init with
    | none =>
      rw [hi] at h
      exact initGlobalsLoop_extend rest env d mem mem2 h
    | some c =>
      rw [hi] at h
      simp only [Option.bind_eq_bind, Option.bind_eq_some] at h
      obtain ⟨v, hv, mem1, hw, h⟩ := h
      simp only [Option.bind_eq_bind, Option.bind_eq_some,
        evaluateConstant_extend env d c v hv, Option.some_bind, hw]
      exact initGlobalsLoop_extend rest env d mem1 mem2 h

/-- C4.  Re-running program initialization on a freshly constructed
interpreter's state is idempotent: the second call rebuilds the global memory,
the global-entity map and the function-pointer map to exactly the state the
run in progress already has, so every lookup of a global entity's address and
every resolution of a synthesized address back to a function after the second
call reflects exactly the (re-)allocations of that second call, with no
distinct mapping surviving from the first. -/
theorem C4_reinit_idempotent (prog : Program) (σ0 σ1 : InterpState)
    (_henv : σ0.globalEnv = []) (_hfpm : σ0.funPtrMap = [])
    (h : evaluateGlobals prog σ0 = some σ1) :
    evaluateGlobals prog σ1 = some σ1 := by
  simp only [evaluateGlobals, Option.bind_eq_bind, Option.bind_eq_some] at h
  obtain ⟨em, hem, mem2, hmem2, efm, hefm, hout⟩ := h
  have hgkeys := allocGlobalsLoop_keys prog prog.module.globals σ0.globalEnv
    σ0.globalMem.clear em hem
  have hfkeys := allocFunsLoop_keys prog prog.module.funcs em.1 σ0.funPtrMap
    mem2 efm hefm
  have hclear : σ1.globalMem.clear = σ0.globalMem.clear := rfl
  have henv1 : σ1.globalEnv = efm.1 := by rw [← Option.some.inj hout]
  have hfpm1 : σ1.funPtrMap = efm.2.1 := by rw [← Option.some.inj hout]
  have hstable : allocGlobalsLoop prog prog.module.globals σ1.globalEnv
      σ0.globalMem.clear = some (σ1.globalEnv, em.2) := by
    refine allocGlobalsLoop_stable prog prog.module.globals σ0.globalEnv
      σ1.globalEnv σ0.globalMem.clear em hem ?_
    intro g hg
    obtain ⟨w, hw⟩ := Option.isSome_iff_exists.mp (hgkeys.1 g hg)
    rw [henv1, Option.isSome_iff_exists]
    exact ⟨w, hfkeys.1 _ w hw⟩
  have hinit : initGlobalsLoop prog.module.globals σ1.globalEnv em.2 =
      some mem2 := by
    obtain ⟨d, hd⟩ := hfkeys.2.2
    rw [henv1, hd]
    exact initGlobalsLoop_extend prog.module.globals em.1 d em.2 mem2 hmem2
  have hfix : allocFunsLoop prog prog.module.funcs σ1.globalEnv σ1.funPtrMap
      mem2 = some efm := by
    rw [henv1, hfpm1]
    exact allocFunsLoop_fixpoint prog prog.module.funcs em.1 σ0.funPtrMap
      mem2 efm hefm
  simp only [evaluateGlobals, Option.bind_eq_bind, hclear, hstable,
    Option.some_bind, hinit, hfix]
  rw [← Option.some.inj hout]

/-- Module of the C4 witness: global 0's initializer references global 1's
address; one function. -/
def C4module : Module :=
  ⟨[(0, ⟨Ty.intTy 32, some (Constant.globalRefC (GlobalKey.gvar 1))⟩),
    (1, ⟨Ty.intTy 32, some (Constant.intC ⟨32, 5⟩)⟩)],
   [(0, ⟨[], false, Ty.funTy,
     [⟨[], [], Terminator.ret none⟩]⟩)]⟩

/-- Program of the C4 witness (4-byte allocation size for every type). -/
def C4prog : Program := ⟨C4module, fun _ => 4, fun _ _ => DynamicValue.undef⟩

/-- State after the first initialization call of the C4 witness. -/
def C4state1 : InterpState :=
  ⟨⟨0, []⟩, ⟨12, [(0, DynamicValue.ptr 4), (4, DynamicValue.intVal ⟨32, 5⟩)]⟩,
   [], [(GlobalKey.gvar 0, 0), (GlobalKey.gvar 1, 4), (GlobalKey.gfun 0, 8)],
   [(8, 0)], 0, 0⟩

/-- Witness for C4: on the concrete module, initializing a second time
reproduces exactly the state of the first initialization. -/
theorem C4_reinit_idempotent_witness :
    evaluateGlobals C4prog C4state1 = some C4state1 :=
  C4_reinit_idempotent C4prog initState C4state1 rfl rfl (by decide)

/-! ### C5: all globals allocated before any initializer runs -/

theorem allocateGlobalMem_spec (prog : Program) (ty : Ty)
    (mem : MemorySection) (out : Nat × MemorySection)
    (h : allocateGlobalMem prog ty mem = some out) :
    out.1 = mem.mark ∧ out.2.mark = mem.mark + prog.dataLayout ty ∧
    out.2.store = mem.store := by
  by_cases hv : ty.isVectorTy
  · simp [allocateGlobalMem, hv] at h
  · simp only [allocateGlobalMem, hv, Bool.false_eq_true, if_false,
      Option.some.injEq] at h
    rw [← h]
    exact ⟨rfl, rfl, rfl⟩

theorem findVal_insertIfAbsent_ne {α β : Type} [DecidableEq α]
    (key k' : α) (v : β) (m : List (α × β)) (h : ¬key = k') :
    findVal (insertIfAbsent key v m) k' = findVal m k' := by
  unfold insertIfAbsent
  cases hk : findVal m key with
  | some w => rfl
  | none =>
    rw [findVal_append]
    cases findVal m k' with
    | some w => rfl
    | none => simp [findVal, h]

theorem findVal_insertIfAbsent_self_absent {α β : Type} [DecidableEq α]
    (key : α) (v : β) (m : List (α × β)) (h : findVal m key = none) :
    findVal (insertIfAbsent key v m) key = some v := by
  unfold insertIfAbsent
  rw [h, findVal_append, h]
  simp [findVal]

theorem allocGlobalsLoop_append (prog : Program) :
    ∀ (l1 l2 : List (Nat × GlobalVar)) (env : List (GlobalKey × Nat))
    (mem : MemorySection),
    allocGlobalsLoop prog (l1 ++ l2) env mem =
      (allocGlobalsLoop prog l1 env mem).bind
        (fun em => allocGlobalsLoop prog l2 em.1 em.2)
  | [], l2, env, mem => by simp [allocGlobalsLoop]
  | g :: rest, l2, env, mem => by
    simp only [List.cons_append, allocGlobalsLoop, Option.bind_eq_bind]
    cases allocateGlobalMem prog g.2.ty mem with
    | none => rfl
    | some am =>
      simpa using allocGlobalsLoop_append prog rest l2
        (insertIfAbsent (GlobalKey.gvar g.1) am.1 env) am.2

theorem initGlobalsLoop_append :
    ∀ (l1 l2 : List (Nat × GlobalVar)) (env : List (GlobalKey × Nat))
    (mem : MemorySection),
    initGlobalsLoop (l1 ++ l2) env mem =
      (initGlobalsLoop l1 env mem).bind (fun m => initGlobalsLoop l2 env m)
  | [], l2, env, mem => by simp [initGlobalsLoop]
  | g :: rest, l2, env, mem => by
    simp only [List.cons_append, initGlobalsLoop, Option.bind_eq_bind]
    cases findVal env (GlobalKey.gvar g.1) with
    | none => rfl
    | some addr =>
      simp only [Option.some_bind]
      cases g.2.init with
      | none => exact initGlobalsLoop_append rest l2 env mem
      | some c =>
        dsimp only
        cases evaluateConstant env c with
        | none => rfl
        | some v =>
          simp only [Option.some_bind]
          cases MemorySection.write mem addr v with
          | none => rfl
          | some mem1 =>
            simpa using initGlobalsLoop_append rest l2 env mem1

theorem allocGlobalsLoop_mem (prog : Program) :
    ∀ (gs : List (Nat × GlobalVar)) (env : List (GlobalKey × Nat))
    (mem : MemorySection) (out : List (GlobalKey × Nat) × MemorySection),
    allocGlobalsLoop prog gs env mem = some out →
    out.2.store = mem.store ∧ mem.mark ≤ out.2.mark
  | [], env, mem, out, h => by
    simp only [allocGlobalsLoop, Option.some.injEq] at h
    rw [← h]
    exact ⟨rfl, Nat.le_refl _⟩
  | g :: rest, env, mem, out, h => by
    simp only [allocGlobalsLoop, Option.bind_eq_bind, Option.bind_eq_some] at h
    obtain ⟨am, ham, hrest⟩ := h
    obtain ⟨h1, h2, h3⟩ := allocateGlobalMem_spec prog g.2.ty mem am ham
    obtain ⟨ih1, ih2⟩ := allocGlobalsLoop_mem prog rest _ am.2 out hrest
    exact ⟨ih1.trans h3, le_trans (by omega) ih2⟩

theorem allocGlobalsLoop_fresh (prog : Program) :
    ∀ (gs : List (Nat × GlobalVar)) (env : List (GlobalKey × Nat))
    (mem : MemorySection) (out : List (GlobalKey × Nat) × MemorySection)
    (gid : Nat),
    allocGlobalsLoop prog gs env mem = some out →
    findVal env (GlobalKey.gvar gid) = none →
    gid ∉ gs.map Prod.fst →
    findVal out.1 (GlobalKey.gvar gid) = none
  | [], env, mem, out, gid, h, habs, _ => by
    simp only [allocGlobalsLoop, Option.some.injEq] at h
    rw [← h]
    exact habs
  | g :: rest, env, mem, out, gid, h, habs, hni => by
    simp only [List.map_cons, List.mem_cons, not_or] at hni
    simp only [allocGlobalsLoop, Option.bind_eq_bind, Option.bind_eq_some] at h
    obtain ⟨am, ham, hrest⟩ := h
    refine allocGlobalsLoop_fresh prog rest _ am.2 out gid hrest ?_ hni.2
    rw [findVal_insertIfAbsent_ne (GlobalKey.gvar g.1) (GlobalKey.gvar gid)
      am.1 env (by simp [Ne.symm hni.1])]
    exact habs

theorem allocGlobalsLoop_range (prog : Program)
    (hdl : ∀ t, 0 < prog.dataLayout t) :
    ∀ (gs : List (Nat × GlobalVar)) (env : List (GlobalKey × Nat))
    (mem : MemorySection) (out : List (GlobalKey × Nat) × MemorySection)
    (g : Nat × GlobalVar),
    allocGlobalsLoop prog gs env mem = some out →
    g ∈ gs →
    findVal env (GlobalKey.gvar g.1) = none →
    ∃ addr, findVal out.1 (GlobalKey.gvar g.1) = some addr ∧
      mem.mark ≤ addr ∧ addr < out.2.mark
  | h0 :: rest, env, mem, out, g, h, hmem, habs => by
    simp only [allocGlobalsLoop, Option.bind_eq_bind, Option.bind_eq_some] at h
    obtain ⟨am, ham, hrest⟩ := h
    obtain ⟨ha1, ha2, _⟩ := allocateGlobalMem_spec prog h0.2.ty mem am ham
    obtain ⟨_, hmarkle⟩ := allocGlobalsLoop_mem prog rest _ am.2 out hrest
    have hmono := (allocGlobalsLoop_keys prog rest _ am.2 out hrest).2.1
    rcases List.mem_cons.mp hmem with rfl | htail
    · refine ⟨am.1, ?_, by omega, by have := hdl g.2.ty; omega⟩
      exact hmono _ am.1 (findVal_insertIfAbsent_self_absent _ am.1 env habs)
    · by_cases hid : h0.1 = g.1
      · refine ⟨am.1, ?_, by omega, by have := hdl h0.2.ty; omega⟩
        refine hmono _ am.1 ?_
        rw [hid]
        exact findVal_insertIfAbsent_self_absent _ am.1 env habs
      · obtain ⟨addr, hf, hge, hlt⟩ :=
          allocGlobalsLoop_range prog hdl rest _ am.2 out g hrest htail
          (by rw [findVal_insertIfAbsent_ne (GlobalKey.gvar h0.1)
                (GlobalKey.gvar g.1) am.1 env (by simp [hid])]
              exact habs)
        exact ⟨addr, hf, by omega, hlt⟩

theorem write_spec (mem : MemorySection) (a : Nat) (v : DynamicValue)
    (out : MemorySection) (h : mem.write a v = some out) :
    out.mark = mem.mark ∧ out.store = insertAssoc a v mem.store ∧
    a < mem.mark := by
  by_cases ha : a < mem.mark
  · simp only [MemorySection.write, if_pos ha, Option.some.injEq] at h
    rw [← h]
    exact ⟨rfl, rfl, ha⟩
  · simp [MemorySection.write, ha] at h

theorem initGlobalsLoop_mark :
    ∀ (gs : List (Nat × GlobalVar)) (env : List (GlobalKey × Nat))
    (mem mem2 : MemorySection),
    initGlobalsLoop gs env mem = some mem2 → mem2.mark = mem.mark
  | [], _, _, _, h => by
    simp only [initGlobalsLoop, Option.some.injEq] at h
    rw [← h]
  | g :: rest, env, mem, mem2, h => by
    simp only [initGlobalsLoop, Option.bind_eq_bind, Option.bind_eq_some] at h
    obtain ⟨addr, _, h⟩ := h
    cases hi : g.2.init with
    | none =>
      rw [hi] at h
      exact initGlobalsLoop_mark rest env mem mem2 h
    | some c =>
      rw [hi] at h
      simp only [Option.bind_eq_bind, Option.bind_eq_some] at h
      obtain ⟨v, _, mem1, hw, h⟩ := h
      rw [initGlobalsLoop_mark rest env mem1 mem2 h,
        (write_spec mem addr v mem1 hw).1]

theorem initGlobalsLoop_read_preserved :
    ∀ (gs : List (Nat × GlobalVar)) (env : List (GlobalKey × Nat))
    (mem mem2 : MemorySection) (a : Nat),
    initGlobalsLoop gs env mem = some mem2 →
    (∀ g ∈ gs, ∀ addr, findVal env (GlobalKey.gvar g.1) = some addr →
      addr ≠ a) →
    findVal mem2.store a = findVal mem.store a
  | [], _, _, _, _, h, _ => by
    simp only [initGlobalsLoop, Option.some.injEq] at h
    rw [← h]
  | g :: rest, env, mem, mem2, a, h, hne => by
    simp only [initGlobalsLoop, Option.bind_eq_bind, Option.bind_eq_some] at h
    obtain ⟨addr, haddr, h⟩ := h
    have hna : addr ≠ a := hne g (List.mem_cons_self _ _) addr haddr
    have hnext := fun q hq => hne q (List.mem_cons_of_mem _ hq)
    cases hi : g.2.init with
    | none =>
      rw [hi] at h
      exact initGlobalsLoop_read_preserved rest env mem mem2 a h hnext
    | some c =>
      rw [hi] at h
      simp only [Option.bind_eq_bind, Option.bind_eq_some] at h
      obtain ⟨v, _, mem1, hw, h⟩ := h
      rw [initGlobalsLoop_read_preserved rest env mem1 mem2 a h hnext,
        (write_spec mem addr v mem1 hw).2.1]
      exact findVal_insertAssoc_ne addr a v hna mem.store

theorem allocFunsLoop_mem (prog : Program) :
    ∀ (fs : List (Nat × Function)) (env : List (GlobalKey × Nat))
    (fpm : List (Nat × Nat)) (mem : MemorySection)
    (out : List (GlobalKey × Nat) × List (Nat × Nat) × MemorySection),
    allocFunsLoop prog fs env fpm mem = some out →
    out.2.2.store = mem.store ∧ mem.mark ≤ out.2.2.mark
  | [], env, fpm, mem, out, h => by
    simp only [allocFunsLoop, Option.some.injEq] at h
    rw [← h]
    exact ⟨rfl, Nat.le_refl _⟩
  | f :: rest, env, fpm, mem, out, h => by
    simp only [allocFunsLoop, Option.bind_eq_bind, Option.bind_eq_some] at h
    obtain ⟨am, ham, hrest⟩ := h
    obtain ⟨h1, h2, h3⟩ := allocateGlobalMem_spec prog f.2.ty mem am ham
    obtain ⟨ih1, ih2⟩ := allocFunsLoop_mem prog rest _ _ am.2 out hrest
    exact ⟨ih1.trans h3, le_trans (by omega) ih2⟩

/-- C5.  Initialization allocates storage addresses for *all* globals before
evaluating *any* initializer: for any two module globals A and B (with
pairwise distinct identities and positive allocation sizes, as the IR and data
layout guarantee) where A's initializer references B's address, the completed
initialization records addresses for both and stores at A's address exactly
the pointer to B's recorded address — wholly independent of the relative
declaration order of A and B in the module. -/
theorem C5_alloc_before_init (prog : Program) (σ0 σ1 : InterpState)
    (ga gb : Nat) (A B : GlobalVar)
    (henv : σ0.globalEnv = [])
    (hdl : ∀ t, 0 < prog.dataLayout t)
    (hnd : (prog.module.globals.map Prod.fst).Nodup)
    (hA : (ga, A) ∈ prog.module.globals)
    (hB : (gb, B) ∈ prog.module.globals)
    (hinitA : A.init = some (Constant.globalRefC (GlobalKey.gvar gb)))
    (h : evaluateGlobals prog σ0 = some σ1) :
    ∃ addrA addrB,
      findVal σ1.globalEnv (GlobalKey.gvar ga) = some addrA ∧
      findVal σ1.globalEnv (GlobalKey.gvar gb) = some addrB ∧
      σ1.globalMem.read addrA = some (DynamicValue.ptr addrB) := by
  obtain ⟨l1, l2, hsplit⟩ := List.append_of_mem hA
  simp only [evaluateGlobals, Option.bind_eq_bind, Option.bind_eq_some] at h
  obtain ⟨em, hem, mem2, hmem2, efm, hefm, hout⟩ := h
  -- whole-run facts, before splitting the loops at A
  have hkeys_all := allocGlobalsLoop_keys prog prog.module.globals
    σ0.globalEnv σ0.globalMem.clear em hem
  obtain ⟨addrB, haddrB⟩ := Option.isSome_iff_exists.mp
    (hkeys_all.1 (gb, B) hB)
  have hmark2 : mem2.mark = em.2.mark :=
    initGlobalsLoop_mark prog.module.globals em.1 em.2 mem2 hmem2
  -- split the allocation loop at A
  rw [hsplit, allocGlobalsLoop_append, henv] at hem
  simp only [Option.bind_eq_some] at hem
  obtain ⟨em1, hem1, hstep⟩ := hem
  simp only [allocGlobalsLoop, Option.bind_eq_bind, Option.bind_eq_some]
    at hstep
  obtain ⟨amA, hamA, hl2⟩ := hstep
  obtain ⟨haA1, haA2, _⟩ := allocateGlobalMem_spec prog (ga, A).2.ty em1.2
    amA hamA
  -- identity bookkeeping from Nodup
  rw [hsplit] at hnd
  simp only [List.map_append, List.map_cons] at hnd
  have hdisj := List.disjoint_of_nodup_append hnd
  have hga_l1 : ga ∉ l1.map Prod.fst :=
    fun hm => hdisj hm (List.mem_cons_self _ _)
  have hga_l2 : ga ∉ l2.map Prod.fst :=
    (List.nodup_cons.mp (List.Nodup.of_append_right hnd)).1
  -- A's address
  have hfresh_ga : findVal em1.1 (GlobalKey.gvar ga) = none :=
    allocGlobalsLoop_fresh prog l1 [] σ0.globalMem.clear em1 ga hem1 rfl hga_l1
  have haddrA_mid :
      findVal (insertIfAbsent (GlobalKey.gvar ga) amA.1 em1.1)
        (GlobalKey.gvar ga) = some amA.1 :=
    findVal_insertIfAbsent_self_absent _ amA.1 em1.1 hfresh_ga
  have haddrA : findVal em.1 (GlobalKey.gvar ga) = some amA.1 :=
    (allocGlobalsLoop_keys prog l2 _ amA.2 em hl2).2.1 _ amA.1 haddrA_mid
  -- every l2 global's address exceeds A's
  have hl2_big : ∀ g ∈ l2, ∀ addr,
      findVal em.1 (GlobalKey.gvar g.1) = some addr → addr ≠ amA.1 := by
    intro g hg addr haddr
    have hg_l1 : g.1 ∉ l1.map Prod.fst := fun hm =>
      hdisj hm (List.mem_cons_of_mem _ (List.mem_map_of_mem Prod.fst hg))
    have hg_ne_ga : ¬ga = g.1 := fun he =>
      hga_l2 (he ▸ List.mem_map_of_mem Prod.fst hg)
    have hfresh_g : findVal em1.1 (GlobalKey.gvar g.1) = none :=
      allocGlobalsLoop_fresh prog l1 [] σ0.globalMem.clear em1 g.1 hem1 rfl
        hg_l1
    have hfresh_g2 : findVal (insertIfAbsent (GlobalKey.gvar ga) amA.1 em1.1)
        (GlobalKey.gvar g.1) = none := by
      rw [findVal_insertIfAbsent_ne (GlobalKey.gvar ga) (GlobalKey.gvar g.1)
        amA.1 em1.1 (by simp [hg_ne_ga])]
      exact hfresh_g
    obtain ⟨addr', hf', hge', _⟩ := allocGlobalsLoop_range prog hdl l2 _ amA.2
      em g hl2 hg hfresh_g2
    have : addr' = addr := by
      rw [haddr] at hf'
      exact (Option.some.inj hf').symm
    subst this
    have := hdl (ga, A).2.ty
    omega
  -- split the initializer loop at A
  rw [hsplit, initGlobalsLoop_append] at hmem2
  simp only [Option.bind_eq_some] at hmem2
  obtain ⟨memm2, hl1init, hstep2⟩ := hmem2
  simp only [initGlobalsLoop, Option.bind_eq_bind, Option.bind_eq_some,
    haddrA, Option.some_bind] at hstep2
  rw [show (ga, A).2.init = some (Constant.globalRefC (GlobalKey.gvar gb))
    from hinitA] at hstep2
  simp only [evaluateConstant, haddrB, Option.bind_eq_bind, Option.some_bind,
    Option.bind_eq_some] at hstep2
  obtain ⟨memw, hwrite, hl2init⟩ := hstep2
  obtain ⟨hwmark, hwstore, hwlt⟩ := write_spec memm2 amA.1
    (DynamicValue.ptr addrB) memw hwrite
  -- the stored value survives the rest of initialization
  have hread2 : findVal mem2.store amA.1 = some (DynamicValue.ptr addrB) := by
    rw [initGlobalsLoop_read_preserved l2 em.1 memw mem2 amA.1 hl2init hl2_big,
      hwstore]
    exact findVal_insertAssoc_self amA.1 (DynamicValue.ptr addrB) memm2.store
  -- and survives function-address synthesis
  obtain ⟨hfstore, hfmark⟩ := allocFunsLoop_mem prog prog.module.funcs em.1
    σ0.funPtrMap mem2 efm hefm
  -- marks
  obtain ⟨_, hl2mark⟩ := allocGlobalsLoop_mem prog l2 _ amA.2 em hl2
  have hlt : amA.1 < efm.2.2.mark := by
    have := hdl (ga, A).2.ty
    omega
  -- assemble
  have henvσ : σ1.globalEnv = efm.1 := by rw [← Option.some.inj hout]
  have hmemσ : σ1.globalMem = efm.2.2 := by rw [← Option.some.inj hout]
  refine ⟨amA.1, addrB, ?_, ?_, ?_⟩
  · rw [henvσ]
    exact (allocFunsLoop_keys prog prog.module.funcs em.1 σ0.funPtrMap mem2
      efm hefm).1 _ amA.1 haddrA
  · rw [henvσ]
    exact (allocFunsLoop_keys prog prog.module.funcs em.1 σ0.funPtrMap mem2
      efm hefm).1 _ addrB haddrB
  · rw [hmemσ]
    simp only [MemorySection.read, if_pos hlt, hfstore]
    exact hread2

/-- Witness for C5: in the concrete module, global 0's initializer references
global 1 — declared *after* it — and initialization stores at global 0's
address the pointer to global 1's address. -/
theorem C5_alloc_before_init_witness :
    ∃ addrA addrB,
      findVal C4state1.globalEnv (GlobalKey.gvar 0) = some addrA ∧
      findVal C4state1.globalEnv (GlobalKey.gvar 1) = some addrB ∧
      C4state1.globalMem.read addrA = some (DynamicValue.ptr addrB) :=
  C5_alloc_before_init C4prog initState C4state1 0 1
    ⟨Ty.intTy 32, some (Constant.globalRefC (GlobalKey.gvar 1))⟩
    ⟨Ty.intTy 32, some (Constant.intC ⟨32, 5⟩)⟩
    rfl (fun _ => Nat.succ_pos 3) (by decide) (by decide) (by decide) rfl
    (by decide)

end LLVMInterp
